import Mathlib

/-!
# Verification of the full-text-indexer synchronization pipeline

A shallow embedding of the indexer Lambda (`esIndex`, `esDelete`,
`processEvent`, `dlq`, `reindexLibrary`) together with proofs of the
spec's testable properties.  Machine integers are modelled as `Nat`
(millisecond clocks, external document versions), stateful AWS clients
become explicit state passing, and thrown JavaScript exceptions become
`Except`-style results threaded next to the state they left behind.
-/

namespace FullTextIndexer

/-! ## String helpers

JavaScript's `String.prototype.includes` and regex `^Pattern` tests are
modelled over the character lists that underlie Lean strings. -/

/-- `containsSeq pat l` is true when `pat` occurs as a contiguous
subsequence of `l`; mirrors JavaScript `l.includes(pat)`. -/
def containsSeq (pat : List Char) : List Char → Bool
  | [] => pat.isEmpty
  | c :: t => pat.isPrefixOf (c :: t) || containsSeq pat t

/-- JavaScript `str.includes(pat)`. -/
def strIncludes (s pat : String) : Bool :=
  containsSeq pat.data s.data

/-- JavaScript `/^pat/.test(s)` for an optional (possibly `undefined`)
string: a regex test coerces `undefined` to the string `"undefined"`,
which starts with neither event-name pattern used in the source. -/
def testStartsWith (pat : String) : Option String → Bool
  | some s => pat.data.isPrefixOf s.data
  | none => pat.data.isPrefixOf "undefined".data

/-- JavaScript `s.slice(1, -1)`: drop the first and last characters.
The source applies it to unwrap the quotes around S3 `ETag` values. -/
def sliceOneNeg (s : String) : String :=
  ⟨(s.data.drop 1).dropLast⟩

/-- S3 returns `ETag` values wrapped in double quotes. -/
def quoteETag (t : String) : String :=
  "\"" ++ t ++ "\""

/-! ## Elasticsearch model

The engine state is an association list from document id to the stored
document, plus an availability flag standing for "the engine answers";
when it is false every request fails with a transport error, which is
how `IndexerUnavailable`-class failures enter the model. -/

/-- The JSON payload of a full-text object: the library, the item key,
the external version, and the remaining content fields (abstract). -/
structure ItemData where
  libraryID : String
  key : String
  version : Nat
  content : String
  deriving DecidableEq, Repr

/-- A document as stored in the index: the payload minus its `key`
field (the source deletes `data.key` before indexing). -/
structure ESDoc where
  version : Nat
  libraryID : String
  content : String
  deriving DecidableEq, Repr

structure ESState where
  docs : List (String × ESDoc)
  available : Bool
  deriving DecidableEq, Repr

/-- Errors raised by the Elasticsearch client: `ResponseError` with
status 409 (version conflict), `ResponseError` with status 404
(document missing), or a transport failure (engine unreachable). -/
inductive ESErr
  | conflict
  | notFound
  | unavailable
  deriving DecidableEq, Repr

def esLookup (docs : List (String × ESDoc)) (id : String) : Option ESDoc :=
  (docs.find? (fun p => p.1 == id)).map Prod.snd

def esStore (docs : List (String × ESDoc)) (id : String) (d : ESDoc) :
    List (String × ESDoc) :=
  (id, d) :: docs.filter (fun p => p.1 != id)

/-- `es.index` with `version_type: 'external_gt'`: the write succeeds
iff the declared version is strictly greater than the stored one (or
the document is absent); otherwise status 409. -/
def esIndexRaw (es : ESState) (id : String) (doc : ESDoc) :
    ESState × Except ESErr Unit :=
  if es.available then
    match esLookup es.docs id with
    | some old =>
      if old.version < doc.version then
        ({ es with docs := esStore es.docs id doc }, .ok ())
      else
        (es, .error .conflict)
    | none => ({ es with docs := esStore es.docs id doc }, .ok ())
  else
    (es, .error .unavailable)

/-- `esIndex` from the source: derive `id` as `libraryID + '/' + key`,
drop the `key` field, issue the version-gated write, and swallow a 409
version conflict ("Ignore version conflict"). -/
def esIndex (es : ESState) (data : ItemData) : ESState × Except ESErr Unit :=
  let id := data.libraryID ++ "/" ++ data.key
  match esIndexRaw es id ⟨data.version, data.libraryID, data.content⟩ with
  | (es', .error .conflict) => (es', .ok ())
  | r => r

/-- `es.delete`: removes the document, status 404 when absent. -/
def esDeleteRaw (es : ESState) (id : String) : ESState × Except ESErr Unit :=
  if es.available then
    match esLookup es.docs id with
    | some _ => ({ es with docs := es.docs.filter (fun p => p.1 != id) }, .ok ())
    | none => (es, .error .notFound)
  else
    (es, .error .unavailable)

/-- `esDelete` from the source: delete by `libraryID + '/' + key`,
swallowing a 404 ("Ignore delete if missing from Elasticsearch"). -/
def esDelete (es : ESState) (libraryID key : String) :
    ESState × Except ESErr Unit :=
  let id := libraryID ++ "/" ++ key
  match esDeleteRaw es id with
  | (es', .error .notFound) => (es', .ok ())
  | r => r

/-! ## S3 model -/

/-- An object at rest in the bucket: its entity tag (unquoted) and the
result of decoding its body — `none` when the bytes fail gunzip or
JSON parsing, `some data` otherwise. -/
structure S3Object where
  eTag : String
  parsed : Option ItemData
  deriving DecidableEq, Repr

/-- The bucket: object key to stored object. -/
abbrev S3Store := List (String × S3Object)

def s3Get (s3 : S3Store) (key : String) : Option S3Object :=
  (s3.find? (fun p => p.1 == key)).map Prod.snd

/-! ## Notifications (raw S3 events)

Fields a malformed notification may be missing are `Option`s; `none`
plays JavaScript's `undefined`. -/

structure RawRecord where
  eventName : Option String
  bucketName : Option String
  objectKey : Option String
  objectETag : Option String
  deriving DecidableEq, Repr

structure RawEvent where
  records : List RawRecord
  deriving DecidableEq, Repr

/-- Failures the primary entry point can raise: a JavaScript
`TypeError` from touching a missing field, a parameter-validation
error from an S3 call without a bucket, the explicit eTag-mismatch
`Error` thrown by the source, a payload decode failure
(`zlib`/`JSON.parse` throw), or a propagated engine error. -/
inductive PErr
  | typeError
  | missingBucket
  | eTagMismatch (key eTagEvent eTagObject : String)
  | malformedPayload
  | engine (e : ESErr)
  deriving DecidableEq, Repr

/-- The `message` of each thrown error, as the dead-letter drainer sees
it in the invocation's error payload.  Only the eTag-mismatch `Error`
carries the phrase the drainer greps for. -/
def errMessage : PErr → String
  | .typeError => "TypeError: Cannot read properties of undefined"
  | .missingBucket => "MissingParameter: Missing required key Bucket in params"
  | .eTagMismatch key e1 e2 =>
      "Event eTag differs from S3 object eTag for " ++ key
        ++ " (" ++ e1 ++ " != " ++ e2
  | .malformedPayload => "SyntaxError: Unexpected token in JSON"
  | .engine .conflict => "ResponseError: version conflict"
  | .engine .notFound => "ResponseError: not found"
  | .engine .unavailable => "ConnectionError: connect ECONNREFUSED"

/-- Wraps an engine call's outcome for the entry point: a raised
engine error propagates out of `processEvent` as an `engine`-tagged
failure, success stays success. -/
def liftEngine (r : ESState × Except ESErr Unit) : ESState × Except PErr Unit :=
  match r with
  | (es', .ok ()) => (es', .ok ())
  | (es', .error e) => (es', .error (.engine e))

/-- `processEvent` from the source, with the Elasticsearch state
threaded through and thrown exceptions surfaced as `.error` next to
the state at the moment of the throw.

Order of effects mirrors the source exactly: read `Records[0]` (throws
on an empty record list), read `key` lazily but crash at
`key.includes` when it is `undefined`, skip `_reindex_status` keys,
then branch on the event-name regex; the `ObjectCreated` branch
fetches from S3 (a missing bucket makes the SDK throw; `NoSuchKey` is
swallowed and the event dropped), compares the event eTag with the
quoted-then-unwrapped object eTag, throws on mismatch, decodes the
payload, and calls `esIndex`; the `ObjectRemoved` branch splits the
key and calls `esDelete`; any other event name falls through with no
effect. -/
def processEvent (s3 : S3Store) (es : ESState) (event : RawEvent) :
    ESState × Except PErr Unit :=
  match event.records.head? with
  | none => (es, .error .typeError)
  | some rec =>
    match rec.objectKey with
    | none => (es, .error .typeError)
    | some key =>
      if strIncludes key "_reindex_status" then
        (es, .ok ())
      else if testStartsWith "ObjectCreated" rec.eventName then
        match rec.bucketName with
        | none => (es, .error .missingBucket)
        | some _bucket =>
          match s3Get s3 key with
          | none => (es, .ok ())
          | some obj =>
            let eTagObject := sliceOneNeg (quoteETag obj.eTag)
            if rec.objectETag ≠ some eTagObject then
              (es, .error (.eTagMismatch key (rec.objectETag.getD "undefined") eTagObject))
            else
              match obj.parsed with
              | none => (es, .error .malformedPayload)
              | some data => liftEngine (esIndex es data)
      else if testStartsWith "ObjectRemoved" rec.eventName then
        let parts := key.splitOn "/"
        let libraryID := parts.headD "undefined"
        let itemKey := (parts.get? 1).getD "undefined"
        liftEngine (esDelete es libraryID itemKey)
      else
        (es, .ok ())

/-! ## Dead-letter drainer (`dlq`)

The retry queue is a list of messages, each carrying the notification
it wraps and the absolute time (in milliseconds) at which it is next
visible.  Receiving a message applies the source's ten-second
visibility lease; deleting removes it.  Clock progress is cooperative:
one loop iteration costs `stepMillis + 1` milliseconds (any positive
amount), and the loop consults `deadline - now` — the Lambda context's
`getRemainingTimeInMillis()` — before each cycle. -/

/-- `VisibilityTimeout: 10` (seconds) from the receive parameters,
expressed in milliseconds. -/
def visibilityTimeoutMillis : Nat := 10 * 1000

/-- The literal `6000` from `while (context.getRemainingTimeInMillis() > 6000)`. -/
def drainTimeMarginMillis : Nat := 6000

/-- The phrase the drainer greps for in a failed replay's payload. -/
def dlqETagPhrase : String := "Event eTag differs from S3 object eTag"

structure QMessage where
  body : RawEvent
  visibleAt : Nat
  deriving DecidableEq, Repr

structure DrainState where
  queue : List QMessage
  es : ESState
  s3 : S3Store
  now : Nat
  numProcessed : Nat
  deriving DecidableEq, Repr

/-- How a drain invocation came to stop: the time budget dropped to the
margin, the queue had no visible message, or a replay failed with an
error other than an eTag mismatch (the source logs it and returns). -/
inductive DrainStop
  | timedOut
  | emptyQueue
  | replayFailed
  deriving DecidableEq, Repr

/-- `ReceiveMessage` with `MaxNumberOfMessages: 1`: split the queue
around its first currently-visible message; `none` when every message
is still leased (or the queue is empty). -/
def receiveSplit (now : Nat) : List QMessage →
    Option (List QMessage × QMessage × List QMessage)
  | [] => none
  | m :: t =>
    if m.visibleAt ≤ now then some ([], m, t)
    else (receiveSplit now t).map (fun p => (m :: p.1, p.2.1, p.2.2))

/-- The drain loop body, fuelled.  The fuel is an embedding artifact:
`dlq` below supplies `deadline - now` as fuel, and since every
iteration requires more than `drainTimeMarginMillis` remaining and
consumes at least one millisecond, exhausted fuel coincides with an
exhausted clock, so the `0` case returns exactly what the time guard
would.  Each iteration mirrors the source: check the remaining time,
receive (applying the visibility lease), invoke the primary entry
point on the message body, then either continue without acknowledging
(eTag-mismatch failure), stop and leave the message leased (any other
failure), or delete the message and count it (success). -/
def dlqLoop (stepMillis deadline : Nat) : Nat → DrainState → DrainState × DrainStop
  | 0, st => (st, .timedOut)
  | fuel + 1, st =>
    if deadline - st.now > drainTimeMarginMillis then
      match receiveSplit st.now st.queue with
      | none => (st, .emptyQueue)
      | some (pre, m, post) =>
        let leased : QMessage := { m with visibleAt := st.now + visibilityTimeoutMillis }
        match processEvent st.s3 st.es m.body with
        | (es', .error e) =>
          if strIncludes (errMessage e) dlqETagPhrase then
            dlqLoop stepMillis deadline fuel
              { st with queue := pre ++ leased :: post, es := es',
                        now := st.now + (stepMillis + 1) }
          else
            ({ st with queue := pre ++ leased :: post, es := es' }, .replayFailed)
        | (es', .ok ()) =>
          dlqLoop stepMillis deadline fuel
            { st with queue := pre ++ post, es := es',
                      now := st.now + (stepMillis + 1),
                      numProcessed := st.numProcessed + 1 }
    else (st, .timedOut)

/-- The `dlq` handler from the source. -/
def dlq (stepMillis deadline : Nat) (st : DrainState) : DrainState × DrainStop :=
  dlqLoop stepMillis deadline (deadline - st.now) st

/-! ## Reindex orchestrator (`reindexLibrary`)

The listing of the collection's prefix is modelled as the
lexicographically ordered association list of (key, unquoted eTag)
pairs; `ListObjectsV2` with `StartAfter` returns the keys strictly
greater than the checkpoint, and continuation tokens walk that list in
pages of `pageSize`.  The run is observed through its trace of
externally visible operations (status-file writes, listings, queue
batch sends, status-file deletion). -/

/-- The literal `6000` from `if (context.getRemainingTimeInMillis() < 6000)`. -/
def reindexTimeMarginMillis : Nat := 6000

/-- "current max for SQS send batch command". -/
def sqsBatchLimit : Nat := 10

/-- A `SendMessageBatch` entry: `Id` is the key with `/` replaced by
`-`, the body the synthesized notification. -/
structure SqsEntry where
  id : String
  body : RawEvent
  deriving DecidableEq, Repr

/-- Externally visible reindex operations, in execution order. -/
inductive ReindexOp
  | putStatus (lastKey : Option String)
  | listPage (keys : List String)
  | sendBatch (entries : List SqsEntry)
  | deleteStatus
  deriving DecidableEq, Repr

/-- The `TypeError` thrown when a listed page has no contents
(`Contents` is `undefined`, or `Contents[Contents.length - 1]` is). -/
inductive ReindexErr
  | emptyPage
  deriving DecidableEq, Repr

inductive ReindexOutcome
  | completed
  | retry (messageId : String)
  deriving DecidableEq, Repr

/-- The `while (sqsEvents.length > 0) { batch = sqsEvents.splice(0, 10); ... }`
grouping, fuelled by the list length (the `0` case is unreachable when
the fuel is at least the length). -/
def batchesOfFuel : Nat → List SqsEntry → List (List SqsEntry)
  | _, [] => []
  | 0, _ => []
  | fuel + 1, x :: t =>
    (x :: t).take sqsBatchLimit :: batchesOfFuel fuel ((x :: t).drop sqsBatchLimit)

def batchesOf (l : List SqsEntry) : List (List SqsEntry) :=
  batchesOfFuel l.length l

/-- JavaScript `key.replace("/", "-")`: string-pattern `replace`
substitutes only the first occurrence. -/
def replaceFirstSlash : List Char → List Char
  | [] => []
  | c :: t => if c = '/' then '-' :: t else c :: replaceFirstSlash t

/-- The `SendMessageBatch` entry id `entry.Key.replace("/", "-")`. -/
def sqsEntryId (key : String) : String :=
  ⟨replaceFirstSlash key.data⟩

/-- The fake `ObjectCreated` notification synthesized for a listed
object, its eTag unwrapped from the listing's quotes. -/
def fakeCreatedEvent (bucket key eTag : String) : RawEvent :=
  ⟨[⟨some "ObjectCreated", some bucket, some key, some (sliceOneNeg (quoteETag eTag))⟩]⟩

/-- The `Contents.map` building one page's batch entries. -/
def pageEntries (bucket : String) (contents : List (String × String)) : List SqsEntry :=
  contents.map (fun o => ⟨sqsEntryId o.1, fakeCreatedEvent bucket o.1 o.2⟩)

/-- The resume key a parsed checkpoint file provides: `none` when the
file is absent or holds `{}`. -/
def statusLastKey : Option (Option String) → Option String
  | some lk => lk
  | none => none

/-- S3's lexicographic key order, decided at the character-list level
(the same order as `<` on `String`, whose own decision procedure is
iterator-based). -/
def keyLtb (a b : String) : Bool :=
  decide (a.data < b.data)

/-- `ListObjectsV2` with an optional `StartAfter`: the keys strictly
after the checkpoint, in listing order. -/
def listAfter (objects : List (String × String)) : Option String → List (String × String)
  | none => objects
  | some k => objects.filter (fun o => keyLtb k o.1)

/-- The `do ... while (IsTruncated)` page loop.  One iteration: check
the remaining budget (`forceStop` on breach), list a page, synthesize
and batch its events, send all batches (the `Promise.all` barrier),
then persist the checkpoint with the page's last key; an empty page
reproduces the source's `TypeError` before any send or checkpoint
write.  The fuel is supplied as `remaining.length + 1` by the wrapper;
each surviving iteration consumes at least one listed key, so the `0`
case is unreachable there. -/
def reindexLoop (bucket : String) (pageSize stepMillis : Nat) (messageId : String) :
    Nat → List (String × String) → Nat → List ReindexOp × Except ReindexErr ReindexOutcome
  | 0, _, _ => ([], .ok (.retry messageId))
  | fuel + 1, remaining, budget =>
    if budget < reindexTimeMarginMillis then
      ([], .ok (.retry messageId))
    else
      let contents := remaining.take pageSize
      let rest := remaining.drop pageSize
      match contents.getLast? with
      | none => ([.listPage (contents.map Prod.fst)], .error .emptyPage)
      | some lastEntry =>
        let pageOps : List ReindexOp :=
          .listPage (contents.map Prod.fst)
            :: (batchesOf (pageEntries bucket contents)).map .sendBatch
            ++ [.putStatus (some lastEntry.1)]
        if rest.isEmpty then
          (pageOps, .ok .completed)
        else
          let next := reindexLoop bucket pageSize stepMillis messageId fuel rest
            (budget - (stepMillis + 1))
          (pageOps ++ next.1, next.2)

/-- The `reindexLibrary` handler: load the checkpoint file (creating
an empty one on a fresh run), enumerate from strictly after its
`lastKey`, run the page loop, and on completion delete the checkpoint;
a forced stop surfaces as `batchItemFailures` carrying the triggering
message id, and a thrown error propagates with the trace performed so
far.  `status` is the parsed content of the `_reindex_status` file:
`none` when the file is absent, `some lk` when it holds `{}`
(`lk = none`) or `{lastKey}` (`lk = some k`). -/
def reindexLibrary (bucket : String) (pageSize stepMillis : Nat)
    (messageId : String) (objects : List (String × String))
    (status : Option (Option String)) (budget : Nat) :
    List ReindexOp × Except ReindexErr ReindexOutcome :=
  let initOps : List ReindexOp := match status with
    | some _ => []
    | none => [.putStatus none]
  let remaining := listAfter objects (statusLastKey status)
  let run := reindexLoop bucket pageSize stepMillis messageId
    (remaining.length + 1) remaining budget
  match run.2 with
  | .ok .completed => (initOps ++ run.1 ++ [.deleteStatus], .ok .completed)
  | r => (initOps ++ run.1, r)

/-- Replay of a trace against the persisted checkpoint file: what the
status object holds after the run's writes and deletes. -/
def applyStatusOps (s : Option (Option String)) : List ReindexOp → Option (Option String)
  | [] => s
  | .putStatus lk :: t => applyStatusOps (some lk) t
  | .deleteStatus :: t => applyStatusOps none t
  | .listPage _ :: t => applyStatusOps s t
  | .sendBatch _ :: t => applyStatusOps s t

/-- The keys carried by one batch's synthesized notifications. -/
def batchKeys (entries : List SqsEntry) : List String :=
  entries.filterMap (fun e => (e.body.records.head?).bind RawRecord.objectKey)

/-- Every key enqueued onto the retry queue over a trace. -/
def enqueuedKeys : List ReindexOp → List String
  | [] => []
  | .sendBatch entries :: t => batchKeys entries ++ enqueuedKeys t
  | .putStatus _ :: t => enqueuedKeys t
  | .listPage _ :: t => enqueuedKeys t
  | .deleteStatus :: t => enqueuedKeys t

/-- One page iteration's trace segment: the listing, all of that
page's batch sends, then the single checkpoint advance carrying the
page's last listed key. -/
def isPageSeg (bucket : String) (seg : List ReindexOp) : Prop :=
  ∃ (contents : List (String × String)) (lastEntry : String × String),
    contents.getLast? = some lastEntry ∧
    seg = .listPage (contents.map Prod.fst)
      :: (batchesOf (pageEntries bucket contents)).map .sendBatch
      ++ [.putStatus (some lastEntry.1)]

/-- Successive redeliveries of one reindex request: run the handler,
and while it reports the retry signal, run it again against the
checkpoint state its trace left behind.  The run count is fuel; the
initial `0` case stands for "redelivery still pending". -/
def reindexRuns (bucket : String) (pageSize stepMillis : Nat) (messageId : String)
    (objects : List (String × String)) (runBudget : Nat) :
    Nat → Option (Option String) → List ReindexOp × Except ReindexErr ReindexOutcome
  | 0, _ => ([], .ok (.retry messageId))
  | n + 1, status =>
    match reindexLibrary bucket pageSize stepMillis messageId objects status runBudget with
    | (tr, .ok (.retry _)) =>
      let next := reindexRuns bucket pageSize stepMillis messageId objects runBudget n
        (applyStatusOps status tr)
      (tr ++ next.1, next.2)
    | (tr, r) => (tr, r)

/-! ## Derived observations used by the statements -/

/-- The search-engine document id derived from a payload. -/
def docId (libraryID key : String) : String :=
  libraryID ++ "/" ++ key

/-- The version currently stored under an id, if any. -/
def storedVersion (es : ESState) (id : String) : Option Nat :=
  (esLookup es.docs id).map ESDoc.version

/-- A sequence of creation events applied through the Indexer, in
order; failures other than the swallowed conflicts are ignored for the
purpose of observing the resulting store. -/
def applyCreates (es : ESState) (l : List ItemData) : ESState :=
  l.foldl (fun s d => (esIndex s d).1) es

/-- The maximum version among a list of creation events. -/
def maxVersion (l : List ItemData) : Nat :=
  l.foldl (fun a d => max a d.version) 0

/-- The bodies sitting in a drain queue (in order), disregarding
visibility leases. -/
def queueBodies (q : List QMessage) : List RawEvent :=
  q.map QMessage.body

/-- The outcome (success or thrown error) of `processEvent`, as a
function of the bucket, the engine's availability and the event alone:
a derived observation used to state that replay outcomes do not depend
on what documents the engine happens to hold (conflicts and missing
documents are swallowed). -/
def processEventOutcome (s3 : S3Store) (avail : Bool) (event : RawEvent) :
    Except PErr Unit :=
  match event.records.head? with
  | none => .error .typeError
  | some rec =>
    match rec.objectKey with
    | none => .error .typeError
    | some key =>
      if strIncludes key "_reindex_status" then .ok ()
      else if testStartsWith "ObjectCreated" rec.eventName then
        match rec.bucketName with
        | none => .error .missingBucket
        | some _ =>
          match s3Get s3 key with
          | none => .ok ()
          | some obj =>
            if rec.objectETag ≠ some (sliceOneNeg (quoteETag obj.eTag)) then
              .error (.eTagMismatch key (rec.objectETag.getD "undefined")
                (sliceOneNeg (quoteETag obj.eTag)))
            else
              match obj.parsed with
              | none => .error .malformedPayload
              | some _ => if avail then .ok () else .error (.engine .unavailable)
      else if testStartsWith "ObjectRemoved" rec.eventName then
        if avail then .ok () else .error (.engine .unavailable)
      else .ok ()

/-! # Theorems

Helper lemmas about the engine model, then one theorem per claim. -/

theorem esLookup_esStore_self (docs : List (String × ESDoc)) (id : String) (d : ESDoc) :
    esLookup (esStore docs id d) id = some d := by
  simp [esLookup, esStore]

theorem esLookup_filter_ne (docs : List (String × ESDoc)) (id : String) :
    esLookup (docs.filter (fun p => p.1 != id)) id = none := by
  unfold esLookup
  have h : List.find? (fun p => p.1 == id) (List.filter (fun p => p.1 != id) docs) = none := by
    rw [List.find?_eq_none]
    intro x hx
    have hne := (List.mem_filter.mp hx).2
    simpa using hne
  rw [h]
  rfl

/-- The Indexer's write either succeeds or is a swallowed conflict;
it only fails when the engine is unreachable. -/
theorem esIndex_result (es : ESState) (d : ItemData) :
    (esIndex es d).2 = if es.available then .ok () else .error .unavailable := by
  unfold esIndex esIndexRaw
  cases h : es.available
  · simp [h]
  · simp only [h, if_true]
    cases hl : esLookup es.docs (d.libraryID ++ "/" ++ d.key) with
    | none => simp
    | some old => by_cases hv : old.version < d.version <;> simp [hv, h]

theorem esIndex_available (es : ESState) (d : ItemData) :
    (esIndex es d).1.available = es.available := by
  unfold esIndex esIndexRaw
  cases h : es.available
  · simp [h]
  · simp only [h, if_true]
    cases hl : esLookup es.docs (d.libraryID ++ "/" ++ d.key) with
    | none => simp
    | some old => by_cases hv : old.version < d.version <;> simp [hv, h]

/-- After a version-gated write under `external_gt`, the stored
version is the larger of the declared and the previous one. -/
theorem esIndex_version (es : ESState) (d : ItemData) (h : es.available = true) :
    storedVersion (esIndex es d).1 (docId d.libraryID d.key) =
      some (max d.version ((storedVersion es (docId d.libraryID d.key)).getD 0)) := by
  unfold esIndex esIndexRaw storedVersion docId
  cases hl : esLookup es.docs (d.libraryID ++ "/" ++ d.key) with
  | none => simp [h, hl, esLookup_esStore_self]
  | some old =>
    by_cases hv : old.version < d.version
    · simp [h, hl, hv, esLookup_esStore_self]
      omega
    · simp [h, hl, hv, storedVersion]
      omega

theorem applyCreates_version (L K : String) :
    ∀ (l : List ItemData) (es : ESState) (v : Nat), es.available = true →
      (∀ d ∈ l, d.libraryID = L ∧ d.key = K) →
      storedVersion es (docId L K) = some v →
      storedVersion (applyCreates es l) (docId L K) =
        some (l.foldl (fun a d => max a d.version) v) := by
  intro l
  induction l with
  | nil => intro es v _ _ hv; simpa [applyCreates] using hv
  | cons d t ih =>
    intro es v havail hsame hv
    have hd := hsame d (by simp)
    have hstep : storedVersion (esIndex es d).1 (docId L K) = some (max v d.version) := by
      have := esIndex_version es d havail
      rw [hd.1, hd.2] at this
      rw [this, hv]
      simp [Nat.max_comm]
    have : applyCreates es (d :: t) = applyCreates (esIndex es d).1 t := rfl
    rw [this]
    rw [ih (esIndex es d).1 (max v d.version)
      (by rw [esIndex_available]; exact havail)
      (fun x hx => hsame x (by simp [hx])) hstep]
    rfl

theorem foldl_max_mem : ∀ (l : List Nat) (a : Nat), l.foldl max a ∈ a :: l := by
  intro l
  induction l with
  | nil => intro a; simp
  | cons b t ih =>
    intro a
    have h := ih (max a b)
    rw [List.foldl_cons]
    rcases List.mem_cons.mp h with h' | h'
    · rw [h']
      rcases max_choice a b with h'' | h'' <;> simp [h'']
    · simp [h']

theorem le_foldl_max : ∀ (l : List Nat) (a : Nat),
    a ≤ l.foldl max a ∧ ∀ x ∈ l, x ≤ l.foldl max a := by
  intro l
  induction l with
  | nil => intro a; simp
  | cons b t ih =>
    intro a
    obtain ⟨h1, h2⟩ := ih (max a b)
    refine ⟨le_trans (Nat.le_max_left a b) h1, ?_⟩
    intro x hx
    rcases List.mem_cons.mp hx with rfl | hx
    · exact le_trans (Nat.le_max_right a x) h1
    · exact h2 x hx

theorem maxVersion_perm {l₁ l₂ : List ItemData} (p : l₁.Perm l₂) :
    maxVersion l₁ = maxVersion l₂ := by
  suffices h : ∀ a, l₁.foldl (fun a d => max a d.version) a
      = l₂.foldl (fun a d => max a d.version) a from h 0
  induction p with
  | nil => intro a; rfl
  | cons x _ ih => intro a; simpa using ih (max a x.version)
  | swap x y l =>
    intro a
    have hacc : max (max a y.version) x.version = max (max a x.version) y.version := by
      omega
    simp only [List.foldl_cons]
    rw [hacc]
  | trans _ _ ih₁ ih₂ => intro a; rw [ih₁, ih₂]

/-- **C3**: for any sequence of `Created` events for one document id,
applied through the Indexer in any order, the final indexed version is
the maximum version among them; a write whose version is at most the
stored one is absorbed as a no-op success (the version-conflict
rejection is not an error), so creation writes commute.  Stated as:
(1) a write with version at most the stored one returns success and
leaves the store untouched; (2) applying any list of creation events
for id `L/K` to a store with no document at that id leaves exactly
version `maxVersion l` stored there; (3) `maxVersion l` really is the
maximum version among the events; (4) `maxVersion` does not depend on
the order of the events. -/
theorem c3_monotonic_versioning :
    (∀ (es : ESState) (d : ItemData) (v : Nat), es.available = true →
        storedVersion es (docId d.libraryID d.key) = some v → d.version ≤ v →
        esIndex es d = (es, .ok ()))
  ∧ (∀ (es : ESState) (L K : String) (l : List ItemData), es.available = true →
        esLookup es.docs (docId L K) = none →
        (∀ d ∈ l, d.libraryID = L ∧ d.key = K) → l ≠ [] →
        storedVersion (applyCreates es l) (docId L K) = some (maxVersion l))
  ∧ (∀ l : List ItemData, l ≠ [] →
        maxVersion l ∈ l.map ItemData.version ∧ ∀ d ∈ l, d.version ≤ maxVersion l)
  ∧ (∀ l₁ l₂ : List ItemData, l₁.Perm l₂ → maxVersion l₁ = maxVersion l₂) := by
  refine ⟨?_, ?_, ?_, fun _ _ p => maxVersion_perm p⟩
  · intro es d v havail hv hle
    unfold storedVersion at hv
    unfold esIndex esIndexRaw
    cases hl : esLookup es.docs (docId d.libraryID d.key) with
    | none => rw [hl] at hv; simp at hv
    | some old =>
      rw [hl] at hv
      have hov : old.version = v := by simpa using hv
      have hnlt : ¬ old.version < d.version := by omega
      unfold docId at hl
      simp [havail, hl, hnlt]
  · intro es L K l havail hfresh hsame hne
    match l, hne with
    | d :: t, _ =>
      have hd := hsame d (by simp)
      have hv0 : storedVersion es (docId L K) = none := by
        unfold storedVersion; rw [hfresh]; rfl
      have h1 : storedVersion (esIndex es d).1 (docId L K) = some d.version := by
        have h := esIndex_version es d havail
        rw [hd.1, hd.2] at h
        rw [h, hv0]
        simp
      have h2 := applyCreates_version L K t (esIndex es d).1 d.version
        (by rw [esIndex_available]; exact havail)
        (fun x hx => hsame x (by simp [hx])) h1
      have hstep : applyCreates es (d :: t) = applyCreates (esIndex es d).1 t := rfl
      rw [hstep, h2]
      unfold maxVersion
      simp [List.foldl_cons, Nat.zero_max]
  · intro l hne
    have hmap : maxVersion l = (l.map ItemData.version).foldl max 0 := by
      unfold maxVersion
      rw [List.foldl_map]
    have hbound : ∀ d ∈ l, d.version ≤ maxVersion l := by
      intro d hd
      rw [hmap]
      exact (le_foldl_max (l.map ItemData.version) 0).2 d.version
        (List.mem_map_of_mem _ hd)
    refine ⟨?_, hbound⟩
    have hmem := foldl_max_mem (l.map ItemData.version) 0
    rw [← hmap] at hmem
    rcases List.mem_cons.mp hmem with h0 | hm
    · match l, hne with
      | d :: t, _ =>
        have hb := hbound d (by simp)
        rw [h0] at hb
        have hd0 : d.version = 0 := by omega
        have hmem0 : (0 : Nat) ∈ (d :: t).map ItemData.version := by
          rw [← hd0]
          exact List.mem_map_of_mem _ (by simp)
        rw [h0]
        exact hmem0
    · exact hm

theorem c3_witness :
    storedVersion (applyCreates ⟨[], true⟩
        [⟨"1", "K", 3, "a"⟩, ⟨"1", "K", 7, "b"⟩, ⟨"1", "K", 5, "c"⟩]) (docId "1" "K")
      = some 7
  ∧ esIndex ⟨[("1/K", ⟨7, "1", "b"⟩)], true⟩ ⟨"1", "K", 5, "c"⟩
      = (⟨[("1/K", ⟨7, "1", "b"⟩)], true⟩, .ok ()) := by
  constructor
  · have h := c3_monotonic_versioning.2.1 ⟨[], true⟩ "1" "K"
      [⟨"1", "K", 3, "a"⟩, ⟨"1", "K", 7, "b"⟩, ⟨"1", "K", 5, "c"⟩] rfl rfl
      (by decide) (by decide)
    rw [h]
    rfl
  · exact c3_monotonic_versioning.1 ⟨[("1/K", ⟨7, "1", "b"⟩)], true⟩
      ⟨"1", "K", 5, "c"⟩ 7 rfl rfl (by decide)

/-- **C8**: for a `Removed` event the Indexer deletes by derived id; a
"not found" (404) response is treated as success — deleting an
already-absent id completes normally with no observable error and no
state change — while any other engine failure (unavailability)
propagates. -/
theorem c8_delete_idempotent :
    (∀ (es : ESState) (L K : String), es.available = true →
        esLookup es.docs (docId L K) = none → esDelete es L K = (es, .ok ()))
  ∧ (∀ (es : ESState) (L K : String) (d : ESDoc), es.available = true →
        esLookup es.docs (docId L K) = some d →
        (esDelete es L K).2 = .ok () ∧
          storedVersion (esDelete es L K).1 (docId L K) = none)
  ∧ (∀ (es : ESState) (L K : String), es.available = false →
        esDelete es L K = (es, .error .unavailable)) := by
  refine ⟨?_, ?_, ?_⟩
  · intro es L K havail hl
    unfold docId at hl
    unfold esDelete esDeleteRaw
    simp [havail, hl]
  · intro es L K d havail hl
    unfold docId at hl
    unfold esDelete esDeleteRaw storedVersion docId
    simp [havail, hl, esLookup_filter_ne]
  · intro es L K hna
    unfold esDelete esDeleteRaw
    simp [hna]

theorem c8_witness :
    esDelete ⟨[], true⟩ "lib42" "itemA" = (⟨[], true⟩, .ok ())
  ∧ (esDelete ⟨[("lib42/itemA", ⟨3, "lib42", "x"⟩)], true⟩ "lib42" "itemA").2 = .ok ()
  ∧ esDelete ⟨[], false⟩ "lib42" "itemA" = (⟨[], false⟩, .error .unavailable) :=
  ⟨c8_delete_idempotent.1 ⟨[], true⟩ "lib42" "itemA" rfl rfl,
   (c8_delete_idempotent.2.1 ⟨[("lib42/itemA", ⟨3, "lib42", "x"⟩)], true⟩
      "lib42" "itemA" ⟨3, "lib42", "x"⟩ rfl rfl).1,
   c8_delete_idempotent.2.2 ⟨[], false⟩ "lib42" "itemA" rfl⟩

theorem sliceOneNeg_quoteETag (t : String) : sliceOneNeg (quoteETag t) = t := by
  unfold sliceOneNeg quoteETag
  have hdata : ("\"" ++ t ++ "\"").data = '"' :: (t.data ++ ['"']) := by
    simp [String.data_append]
  rw [hdata]
  simp only [List.drop_succ_cons, List.drop_zero, List.dropLast_concat]

/-- **C2**: a `Created` notification whose recorded fingerprint differs
from the fetched object's current fingerprint produces no index write
and surfaces as the eTag-mismatch error (the `ConsistencyMismatch`
class): the engine state comes back exactly as it went in, paired with
the thrown error. -/
theorem c2_consistency_guard (s3 : S3Store) (es : ESState) (rec : RawRecord)
    (others : List RawRecord) (key b F : String) (obj : S3Object)
    (hkey : rec.objectKey = some key)
    (hskip : strIncludes key "_reindex_status" = false)
    (hname : testStartsWith "ObjectCreated" rec.eventName = true)
    (hb : rec.bucketName = some b)
    (hobj : s3Get s3 key = some obj)
    (hF : rec.objectETag = some F)
    (hne : F ≠ obj.eTag) :
    processEvent s3 es ⟨rec :: others⟩
      = (es, .error (.eTagMismatch key F obj.eTag)) := by
  unfold processEvent
  simp [hkey, hskip, hname, hb, hobj, hF, sliceOneNeg_quoteETag, hne]

theorem c2_witness :
    processEvent [("1/AAA", ⟨"x", some ⟨"1", "AAA", 5, "hello"⟩⟩)] ⟨[], true⟩
        ⟨[⟨some "ObjectCreated:Put", some "b", some "1/AAA", some "y"⟩]⟩
      = (⟨[], true⟩, .error (.eTagMismatch "1/AAA" "y" "x")) :=
  c2_consistency_guard _ _ _ [] "1/AAA" "b" "y" ⟨"x", some ⟨"1", "AAA", 5, "hello"⟩⟩
    rfl (by decide) (by decide) rfl rfl rfl (by decide)

/-- **C4 counterexample**: two parts of the claim fail on the code.
(1) A well-formed notification whose type is neither creation nor
removal (here `ObjectRestore:Post`) is *silently ignored* —
`processEvent` returns success and leaves the engine untouched —
whereas the claim requires it to be rejected.  (2) A malformed
notification (missing object key) is *retried*, not "never retried":
its primary invocation fails with the `TypeError`-class error (so the
failed event lands in the retry queue the drainer is wired to), and a
drain run then replays it — the run stops reporting the failed replay
and leaves the message queued, merely leased until time 10000 — after
which a later drain run, once the lease has lapsed, replays it again
and leaves it queued again. -/
theorem c4_counterexample :
    processEvent [("1/AAA", ⟨"x", some ⟨"1", "AAA", 5, "hello"⟩⟩)] ⟨[], true⟩
        ⟨[⟨some "ObjectRestore:Post", some "b", some "1/AAA", some "x"⟩]⟩
      = (⟨[], true⟩, .ok ())
  ∧ processEvent [] ⟨[], true⟩ ⟨[⟨some "ObjectCreated:Put", some "b", none, none⟩]⟩
      = (⟨[], true⟩, .error .typeError)
  ∧ dlq 0 6002 ⟨[⟨⟨[⟨some "ObjectCreated:Put", some "b", none, none⟩]⟩, 0⟩],
        ⟨[], true⟩, [], 0, 0⟩
      = (⟨[⟨⟨[⟨some "ObjectCreated:Put", some "b", none, none⟩]⟩, 10000⟩],
          ⟨[], true⟩, [], 0, 0⟩, .replayFailed)
  ∧ dlq 0 26002 ⟨[⟨⟨[⟨some "ObjectCreated:Put", some "b", none, none⟩]⟩, 10000⟩],
        ⟨[], true⟩, [], 20000, 0⟩
      = (⟨[⟨⟨[⟨some "ObjectCreated:Put", some "b", none, none⟩]⟩, 30000⟩],
          ⟨[], true⟩, [], 20000, 0⟩, .replayFailed) :=
  ⟨rfl, rfl, rfl, rfl⟩

/-- **C4 (amended)**: malformed notifications fail fast — an empty
record list or a missing object key raises a `TypeError`-class error,
a missing bucket fails the fetch, and an unparseable or
undecompressable payload raises a `MalformedInput`-class error, all
surfaced as failures — but a well-formed notification whose type
matches neither creation nor removal is silently ignored (success, no
index operation), not rejected; and malformed notifications *are*
retried: whenever the drainer's next visible queued message is a
malformed (missing-key) notification, the drain replays it, stops
reporting the failed replay, and does not delete it, so the message
stays queued for the next scheduled drain to replay again. -/
theorem c4_malformed_fail_fast :
    (∀ (s3 : S3Store) (es : ESState), processEvent s3 es ⟨[]⟩ = (es, .error .typeError))
  ∧ (∀ (s3 : S3Store) (es : ESState) (rec : RawRecord) (others : List RawRecord),
        rec.objectKey = none →
        processEvent s3 es ⟨rec :: others⟩ = (es, .error .typeError))
  ∧ (∀ (s3 : S3Store) (es : ESState) (rec : RawRecord) (others : List RawRecord)
        (key : String),
        rec.objectKey = some key → strIncludes key "_reindex_status" = false →
        testStartsWith "ObjectCreated" rec.eventName = true →
        rec.bucketName = none →
        processEvent s3 es ⟨rec :: others⟩ = (es, .error .missingBucket))
  ∧ (∀ (s3 : S3Store) (es : ESState) (rec : RawRecord) (others : List RawRecord)
        (key b : String) (obj : S3Object),
        rec.objectKey = some key → strIncludes key "_reindex_status" = false →
        testStartsWith "ObjectCreated" rec.eventName = true →
        rec.bucketName = some b → s3Get s3 key = some obj →
        rec.objectETag = some obj.eTag → obj.parsed = none →
        processEvent s3 es ⟨rec :: others⟩ = (es, .error .malformedPayload))
  ∧ (∀ (s3 : S3Store) (es : ESState) (rec : RawRecord) (others : List RawRecord)
        (key : String),
        rec.objectKey = some key → strIncludes key "_reindex_status" = false →
        testStartsWith "ObjectCreated" rec.eventName = false →
        testStartsWith "ObjectRemoved" rec.eventName = false →
        processEvent s3 es ⟨rec :: others⟩ = (es, .ok ()))
  ∧ (∀ (stepMillis deadline : Nat) (st : DrainState) (pre post : List QMessage)
        (m : QMessage) (rec : RawRecord) (others : List RawRecord),
        deadline - st.now > drainTimeMarginMillis →
        receiveSplit st.now st.queue = some (pre, m, post) →
        m.body = ⟨rec :: others⟩ → rec.objectKey = none →
        (dlq stepMillis deadline st).2 = .replayFailed
          ∧ m.body ∈ queueBodies (dlq stepMillis deadline st).1.queue) := by
  refine ⟨?_, ?_, ?_, ?_, ?_, ?_⟩
  · intro s3 es
    rfl
  · intro s3 es rec others hkey
    unfold processEvent
    simp [hkey]
  · intro s3 es rec others key hkey hskip hname hb
    unfold processEvent
    simp [hkey, hskip, hname, hb]
  · intro s3 es rec others key b obj hkey hskip hname hb hobj hTag hparsed
    unfold processEvent
    simp [hkey, hskip, hname, hb, hobj, hTag, sliceOneNeg_quoteETag, hparsed]
  · intro s3 es rec others key hkey hskip h1 h2
    unfold processEvent
    simp [hkey, hskip, h1, h2]
  · intro stepMillis deadline st pre post m rec others hg hrecv hbody hkey
    have hpe : processEvent st.s3 st.es m.body = (st.es, .error .typeError) := by
      rw [hbody]
      unfold processEvent
      simp [hkey]
    have hincl : ¬ strIncludes (errMessage PErr.typeError) dlqETagPhrase = true := by decide
    cases hfuel : deadline - st.now with
    | zero =>
      rw [hfuel] at hg
      exact absurd hg (by decide)
    | succ f =>
      have hred : dlqLoop stepMillis deadline (f + 1) st
          = ({ st with
                queue := pre ++ { m with visibleAt := st.now + visibilityTimeoutMillis } :: post,
                es := st.es }, .replayFailed) := by
        simp only [dlqLoop]
        rw [if_pos hg]
        simp only [hrecv, hpe, if_neg hincl]
      unfold dlq
      rw [hfuel, hred]
      refine ⟨rfl, ?_⟩
      simp [queueBodies]

theorem c4_witness :
    processEvent [] ⟨[], true⟩ ⟨[]⟩ = (⟨[], true⟩, .error .typeError)
  ∧ processEvent [] ⟨[], true⟩ ⟨[⟨some "ObjectCreated:Put", some "b", none, none⟩]⟩
      = (⟨[], true⟩, .error .typeError)
  ∧ processEvent [] ⟨[], true⟩ ⟨[⟨some "ObjectCreated:Put", none, some "1/AAA", some "x"⟩]⟩
      = (⟨[], true⟩, .error .missingBucket)
  ∧ processEvent [("1/AAA", ⟨"x", none⟩)] ⟨[], true⟩
        ⟨[⟨some "ObjectCreated:Put", some "b", some "1/AAA", some "x"⟩]⟩
      = (⟨[], true⟩, .error .malformedPayload)
  ∧ processEvent [] ⟨[], true⟩ ⟨[⟨some "ObjectRestore:Post", some "b", some "1/AAA", some "x"⟩]⟩
      = (⟨[], true⟩, .ok ())
  ∧ ((dlq 1 6002 ⟨[⟨⟨[⟨some "ObjectCreated:Put", some "b", none, none⟩]⟩, 0⟩],
        ⟨[], true⟩, [], 0, 0⟩).2 = .replayFailed
      ∧ (⟨[⟨some "ObjectCreated:Put", some "b", none, none⟩]⟩ : RawEvent)
          ∈ queueBodies (dlq 1 6002 ⟨[⟨⟨[⟨some "ObjectCreated:Put", some "b", none, none⟩]⟩, 0⟩],
              ⟨[], true⟩, [], 0, 0⟩).1.queue) :=
  ⟨c4_malformed_fail_fast.1 [] ⟨[], true⟩,
   c4_malformed_fail_fast.2.1 [] ⟨[], true⟩ ⟨some "ObjectCreated:Put", some "b", none, none⟩ [] rfl,
   c4_malformed_fail_fast.2.2.1 [] ⟨[], true⟩
     ⟨some "ObjectCreated:Put", none, some "1/AAA", some "x"⟩ [] "1/AAA"
     rfl (by decide) (by decide) rfl,
   c4_malformed_fail_fast.2.2.2.1 [("1/AAA", ⟨"x", none⟩)] ⟨[], true⟩
     ⟨some "ObjectCreated:Put", some "b", some "1/AAA", some "x"⟩ [] "1/AAA" "b"
     ⟨"x", none⟩ rfl (by decide) (by decide) rfl rfl rfl rfl,
   c4_malformed_fail_fast.2.2.2.2.1 [] ⟨[], true⟩
     ⟨some "ObjectRestore:Post", some "b", some "1/AAA", some "x"⟩ [] "1/AAA"
     rfl (by decide) (by decide) (by decide),
   c4_malformed_fail_fast.2.2.2.2.2 1 6002
     ⟨[⟨⟨[⟨some "ObjectCreated:Put", some "b", none, none⟩]⟩, 0⟩], ⟨[], true⟩, [], 0, 0⟩
     [] [] ⟨⟨[⟨some "ObjectCreated:Put", some "b", none, none⟩]⟩, 0⟩
     ⟨some "ObjectCreated:Put", some "b", none, none⟩ []
     (by decide) rfl rfl rfl⟩

/-! ## Drainer lemmas -/

theorem isPrefixOf_append (l r : List Char) : l.isPrefixOf (l ++ r) = true := by
  induction l with
  | nil => simp [List.isPrefixOf]
  | cons c t ih => simp [List.isPrefixOf, ih]

theorem containsSeq_of_isPrefixOf (pat l : List Char) (h : pat.isPrefixOf l = true) :
    containsSeq pat l = true := by
  cases l with
  | nil =>
    cases pat with
    | nil => rfl
    | cons c t => simp [List.isPrefixOf] at h
  | cons c t =>
    unfold containsSeq
    rw [h]
    rfl

/-- The eTag-mismatch error message always contains the phrase the
drainer greps for, whatever the key and tags. -/
theorem strIncludes_eTagMismatch (key e1 e2 : String) :
    strIncludes (errMessage (.eTagMismatch key e1 e2)) dlqETagPhrase = true := by
  apply containsSeq_of_isPrefixOf
  have hmsg : (errMessage (.eTagMismatch key e1 e2)).data
      = dlqETagPhrase.data ++ (" for " ++ key ++ " (" ++ e1 ++ " != " ++ e2).data := by
    show ("Event eTag differs from S3 object eTag for " ++ key ++ " (" ++ e1
        ++ " != " ++ e2).data = _
    simp only [String.data_append, List.append_assoc]
    rfl
  rw [hmsg]
  exact isPrefixOf_append _ _

theorem esDelete_result (es : ESState) (L K : String) :
    (esDelete es L K).2 = if es.available then .ok () else .error .unavailable := by
  unfold esDelete esDeleteRaw
  cases h : es.available
  · simp [h]
  · simp only [h, if_true]
    cases hl : esLookup es.docs (L ++ "/" ++ K) with
    | none => simp [h]
    | some d => simp [h]

theorem esDelete_available (es : ESState) (L K : String) :
    (esDelete es L K).1.available = es.available := by
  unfold esDelete esDeleteRaw
  cases h : es.available
  · simp [h]
  · simp only [h, if_true]
    cases hl : esLookup es.docs (L ++ "/" ++ K) with
    | none => simp [h]
    | some d => simp [h]

theorem liftEngine_fst (r : ESState × Except ESErr Unit) :
    (liftEngine r).1 = r.1 := by
  obtain ⟨es', r2⟩ := r
  cases r2 with
  | ok u => cases u; rfl
  | error e => rfl

theorem liftEngine_snd (r : ESState × Except ESErr Unit) :
    (liftEngine r).2 = match r.2 with
      | .ok _ => .ok ()
      | .error e => .error (.engine e) := by
  obtain ⟨es', r2⟩ := r
  cases r2 with
  | ok u => cases u; rfl
  | error e => rfl

/-- The outcome of one `processEvent` call depends only on the bucket,
the event, and whether the engine answers — not on the documents the
engine holds (conflicts and missing documents are swallowed). -/
theorem processEvent_snd (s3 : S3Store) (es : ESState) (ev : RawEvent) :
    (processEvent s3 es ev).2 = processEventOutcome s3 es.available ev := by
  unfold processEvent processEventOutcome
  repeat' split
  all_goals try rfl
  all_goals simp_all [liftEngine_snd, esIndex_result, esDelete_result]

theorem processEvent_available (s3 : S3Store) (es : ESState) (ev : RawEvent) :
    (processEvent s3 es ev).1.available = es.available := by
  unfold processEvent
  repeat' split
  all_goals try rfl
  all_goals try (simp [liftEngine_fst, esIndex_available, esDelete_available])
  all_goals (split_ifs <;>
    simp [liftEngine_fst, esIndex_available, esDelete_available])

theorem receiveSplit_eq (now : Nat) :
    ∀ (q pre : List QMessage) (m : QMessage) (post : List QMessage),
      receiveSplit now q = some (pre, m, post) → q = pre ++ m :: post := by
  intro q
  induction q with
  | nil => intro pre m post h; simp [receiveSplit] at h
  | cons m₀ t ih =>
    intro pre m post h
    unfold receiveSplit at h
    by_cases hv : m₀.visibleAt ≤ now
    · rw [if_pos hv] at h
      obtain ⟨h1, h2, h3⟩ := by
        simpa using h
      subst h1 h2 h3
      rfl
    · rw [if_neg hv] at h
      cases hr : receiveSplit now t with
      | none => rw [hr] at h; simp at h
      | some p =>
        rw [hr] at h
        obtain ⟨p1, p2, p3⟩ := p
        obtain ⟨h1, h2, h3⟩ := by
          simpa using h
        subst h1 h2 h3
        simpa using congrArg (m₀ :: ·) (ih p1 p2 p3 hr)

/-- Messages disappear from the drain queue only when their replay
succeeded: a replay failure of any class leaves the message in the
queue (leased, hence re-deliverable once the lease lapses). -/
theorem dlqLoop_delete_only_on_success (stepMillis deadline : Nat) :
    ∀ (fuel : Nat) (st : DrainState) (b : RawEvent),
      b ∈ queueBodies st.queue →
      b ∉ queueBodies (dlqLoop stepMillis deadline fuel st).1.queue →
      (processEvent st.s3 st.es b).2 = .ok () := by
  intro fuel
  induction fuel with
  | zero =>
    intro st b hin hout
    exact absurd hin hout
  | succ f ih =>
    intro st b hin hout
    unfold dlqLoop at hout
    by_cases hg : deadline - st.now > drainTimeMarginMillis
    · rw [if_pos hg] at hout
      cases hrs : receiveSplit st.now st.queue with
      | none =>
        simp only [hrs] at hout
        exact absurd hin hout
      | some trip =>
        obtain ⟨pre, m, post⟩ := trip
        have hq := receiveSplit_eq st.now st.queue pre m post hrs
        simp only [hrs] at hout
        cases hpe : processEvent st.s3 st.es m.body with
        | mk es' r =>
          have hav : es'.available = st.es.available := by
            have h := processEvent_available st.s3 st.es m.body
            rw [hpe] at h
            exact h
          cases r with
          | error e =>
            by_cases hincl : strIncludes (errMessage e) dlqETagPhrase = true
            · simp only [hpe, hincl, if_true] at hout
              have hin₁ : b ∈ queueBodies
                  (pre ++ { m with visibleAt := st.now + visibilityTimeoutMillis } :: post) := by
                rw [hq] at hin
                simpa [queueBodies] using hin
              have hres := ih _ b hin₁ hout
              rw [processEvent_snd] at hres ⊢
              rw [← hav]
              exact hres
            · rw [hpe] at hout
              simp only [if_neg hincl] at hout
              rw [hq] at hin
              have : b ∈ queueBodies
                  (pre ++ { m with visibleAt := st.now + visibilityTimeoutMillis } :: post) := by
                simpa [queueBodies] using hin
              exact absurd this hout
          | ok u =>
            cases u
            simp only [hpe] at hout
            by_cases hb2 : b ∈ queueBodies (pre ++ post)
            · have hres := ih _ b hb2 hout
              rw [processEvent_snd] at hres ⊢
              rw [← hav]
              exact hres
            · have hbm : b = m.body := by
                rw [hq] at hin
                simp only [queueBodies, List.map_append, List.map_cons, List.mem_append,
                  List.mem_cons] at hin hb2
                tauto
              rw [hbm]
              have h2 := congrArg Prod.snd hpe
              simpa using h2
    · rw [if_neg hg] at hout
      exact absurd hin hout

/-- Leasing one message of a bounded queue keeps every visibility
deadline within one lease of a clock moved forward by `dt`. -/
theorem lease_bound_step (pre post : List QMessage) (m : QMessage) (q : List QMessage)
    (now dt : Nat) (hq : q = pre ++ m :: post)
    (hbound : ∀ x ∈ q, x.visibleAt ≤ now + visibilityTimeoutMillis) :
    ∀ x ∈ pre ++ { m with visibleAt := now + visibilityTimeoutMillis } :: post,
      x.visibleAt ≤ (now + dt) + visibilityTimeoutMillis := by
  intro x hx
  rcases List.mem_append.mp hx with h | h
  · have := hbound x (by rw [hq]; exact List.mem_append.mpr (Or.inl h))
    omega
  · rcases List.mem_cons.mp h with rfl | h
    · show now + visibilityTimeoutMillis ≤ (now + dt) + visibilityTimeoutMillis
      omega
    · have := hbound x (by
        rw [hq]
        exact List.mem_append.mpr (Or.inr (List.mem_cons.mpr (Or.inr h))))
      omega

/-- Deleting one message of a bounded queue keeps every visibility
deadline within one lease of a clock moved forward by `dt`. -/
theorem lease_bound_drop (pre post : List QMessage) (m : QMessage) (q : List QMessage)
    (now dt : Nat) (hq : q = pre ++ m :: post)
    (hbound : ∀ x ∈ q, x.visibleAt ≤ now + visibilityTimeoutMillis) :
    ∀ x ∈ pre ++ post, x.visibleAt ≤ (now + dt) + visibilityTimeoutMillis := by
  intro x hx
  rcases List.mem_append.mp hx with h | h
  · have := hbound x (by rw [hq]; exact List.mem_append.mpr (Or.inl h))
    omega
  · have := hbound x (by
      rw [hq]
      exact List.mem_append.mpr (Or.inr (List.mem_cons.mpr (Or.inr h))))
    omega

/-- The drain loop only moves the clock forward, and preserves the
invariant that every queued message's visibility deadline is at most
one lease beyond the clock — every unacknowledged message becomes
visible again within one visibility timeout. -/
theorem dlqLoop_lease_bound (stepMillis deadline : Nat) :
    ∀ (fuel : Nat) (st : DrainState),
      (∀ m ∈ st.queue, m.visibleAt ≤ st.now + visibilityTimeoutMillis) →
      st.now ≤ (dlqLoop stepMillis deadline fuel st).1.now ∧
      ∀ m' ∈ (dlqLoop stepMillis deadline fuel st).1.queue,
        m'.visibleAt ≤ (dlqLoop stepMillis deadline fuel st).1.now + visibilityTimeoutMillis := by
  intro fuel
  induction fuel with
  | zero =>
    intro st hbound
    exact ⟨le_refl _, hbound⟩
  | succ f ih =>
    intro st hbound
    unfold dlqLoop
    by_cases hg : deadline - st.now > drainTimeMarginMillis
    · rw [if_pos hg]
      cases hrs : receiveSplit st.now st.queue with
      | none => exact ⟨le_refl _, hbound⟩
      | some trip =>
        obtain ⟨pre, m, post⟩ := trip
        have hq := receiveSplit_eq st.now st.queue pre m post hrs
        simp only []
        cases hpe : processEvent st.s3 st.es m.body with
        | mk es' r =>
          cases r with
          | error e =>
            by_cases hincl : strIncludes (errMessage e) dlqETagPhrase = true
            · simp only [hpe, hincl, if_true]
              have hb₁ := lease_bound_step pre post m st.queue st.now (stepMillis + 1)
                hq hbound
              have hih := ih ⟨pre ++ { m with visibleAt := st.now + visibilityTimeoutMillis } :: post,
                  es', st.s3, st.now + (stepMillis + 1), st.numProcessed⟩ hb₁
              exact ⟨le_trans (Nat.le_add_right _ _) hih.1, hih.2⟩
            · simp only [hpe]
              rw [if_neg hincl]
              refine ⟨le_refl _, ?_⟩
              have hb₁ := lease_bound_step pre post m st.queue st.now 0 hq hbound
              intro m' hm'
              have := hb₁ m' hm'
              show m'.visibleAt ≤ st.now + visibilityTimeoutMillis
              omega
          | ok u =>
            cases u
            simp only [hpe]
            have hb₂ := lease_bound_drop pre post m st.queue st.now (stepMillis + 1)
              hq hbound
            have hih := ih ⟨pre ++ post, es', st.s3, st.now + (stepMillis + 1),
                st.numProcessed + 1⟩ hb₂
            exact ⟨le_trans (Nat.le_add_right _ _) hih.1, hih.2⟩
    · rw [if_neg hg]
      exact ⟨le_refl _, hbound⟩

/-- One drain iteration on a queue holding a single visible message
whose replay fails with a phrase-matching (eTag-mismatch) error:
`continue` — the message is leased, not deleted, and the loop goes
round again. -/
theorem dlqLoop_mismatch_leaves (stepMillis deadline f : Nat) (s3 : S3Store)
    (es : ESState) (ev : RawEvent) (t now np : Nat) (e : PErr)
    (hvis : t ≤ now)
    (htime : drainTimeMarginMillis < deadline - now)
    (hincl : strIncludes (errMessage e) dlqETagPhrase = true)
    (hrep : processEvent s3 es ev = (es, .error e)) :
    dlqLoop stepMillis deadline (f + 1) ⟨[⟨ev, t⟩], es, s3, now, np⟩
      = dlqLoop stepMillis deadline f
          ⟨[⟨ev, now + visibilityTimeoutMillis⟩], es, s3, now + (stepMillis + 1), np⟩ := by
  simp only [dlqLoop]
  rw [if_pos (show drainTimeMarginMillis < deadline - now from htime)]
  simp [receiveSplit, hvis, hrep, hincl]

/-- The drain loop over a queue whose only message is still leased
stops (empty receive or timeout) without touching the state. -/
theorem dlqLoop_invisible (stepMillis deadline f : Nat) (s3 : S3Store) (es : ESState)
    (ev : RawEvent) (v now np : Nat) (hv : now < v) :
    (dlqLoop stepMillis deadline f ⟨[⟨ev, v⟩], es, s3, now, np⟩).1
        = ⟨[⟨ev, v⟩], es, s3, now, np⟩
      ∧ (dlqLoop stepMillis deadline f ⟨[⟨ev, v⟩], es, s3, now, np⟩).2
          ≠ .replayFailed := by
  cases f with
  | zero => exact ⟨rfl, by simp [dlqLoop]⟩
  | succ f' =>
    unfold dlqLoop
    by_cases hg : deadline - now > drainTimeMarginMillis
    · rw [if_pos (by simpa using hg)]
      simp [receiveSplit, Nat.not_le.mpr hv]
    · rw [if_neg (by simpa using hg)]
      simp

/-- **C1 counterexample**: a drain cycle whose single queued message
replays with an eTag-mismatch (`ConsistencyMismatch`-class) failure
does *not* delete the message: after the drain returns, the message is
still in the retry queue (now leased until time 10000), so it will be
redelivered once the lease lapses — contradicting the claim that such
a message is deleted and never redelivered. -/
theorem c1_counterexample :
    (dlq 0 6002 ⟨[⟨⟨[⟨some "ObjectCreated:Put", some "b", some "1/AAA", some "y"⟩]⟩, 0⟩],
        ⟨[], true⟩, [("1/AAA", ⟨"x", some ⟨"1", "AAA", 5, "hello"⟩⟩)], 0, 0⟩).1.queue
      = [⟨⟨[⟨some "ObjectCreated:Put", some "b", some "1/AAA", some "y"⟩]⟩, 10000⟩]
  ∧ (processEvent [("1/AAA", ⟨"x", some ⟨"1", "AAA", 5, "hello"⟩⟩)] ⟨[], true⟩
        ⟨[⟨some "ObjectCreated:Put", some "b", some "1/AAA", some "y"⟩]⟩).2
      = .error (.eTagMismatch "1/AAA" "y" "x") :=
  ⟨rfl, rfl⟩

/-- **C1 (amended)**: when a replayed message fails with a
`ConsistencyMismatch`-class (eTag-mismatch) failure, the drainer does
*not* acknowledge it: it skips the delete and continues the loop, so
the message stays in the retry queue under a fresh visibility lease
and becomes re-deliverable after the lease expires; the drain is not
aborted (the stop reason is never the replay-failure abort). -/
theorem c1_mismatch_not_deleted (stepMillis deadline : Nat) (s3 : S3Store)
    (es : ESState) (ev : RawEvent) (t now np : Nat) (key F Fo : String)
    (hvis : t ≤ now)
    (htime : drainTimeMarginMillis < deadline - now)
    (hstep : stepMillis + 1 < visibilityTimeoutMillis)
    (hrep : processEvent s3 es ev = (es, .error (.eTagMismatch key F Fo))) :
    (dlq stepMillis deadline ⟨[⟨ev, t⟩], es, s3, now, np⟩).1
        = ⟨[⟨ev, now + visibilityTimeoutMillis⟩], es, s3, now + (stepMillis + 1), np⟩
      ∧ (dlq stepMillis deadline ⟨[⟨ev, t⟩], es, s3, now, np⟩).2 ≠ .replayFailed := by
  unfold dlq
  have hfuel : deadline - (⟨[⟨ev, t⟩], es, s3, now, np⟩ : DrainState).now
      = (deadline - now - 1) + 1 := by
    show deadline - now = _
    unfold drainTimeMarginMillis at htime
    omega
  rw [hfuel, dlqLoop_mismatch_leaves stepMillis deadline (deadline - now - 1) s3 es ev
    t now np (.eTagMismatch key F Fo) hvis htime (strIncludes_eTagMismatch key F Fo) hrep]
  exact dlqLoop_invisible stepMillis deadline (deadline - now - 1) s3 es ev
    (now + visibilityTimeoutMillis) (now + (stepMillis + 1)) np (by omega)

theorem c1_witness :
    (dlq 0 6002 ⟨[⟨⟨[⟨some "ObjectCreated:Put", some "b", some "1/AAA", some "y"⟩]⟩, 0⟩],
        ⟨[], true⟩, [("1/AAA", ⟨"x", some ⟨"1", "AAA", 5, "hello"⟩⟩)], 0, 0⟩).1
        = ⟨[⟨⟨[⟨some "ObjectCreated:Put", some "b", some "1/AAA", some "y"⟩]⟩, 10000⟩],
           ⟨[], true⟩, [("1/AAA", ⟨"x", some ⟨"1", "AAA", 5, "hello"⟩⟩)], 1, 0⟩
      ∧ (dlq 0 6002 ⟨[⟨⟨[⟨some "ObjectCreated:Put", some "b", some "1/AAA", some "y"⟩]⟩, 0⟩],
          ⟨[], true⟩, [("1/AAA", ⟨"x", some ⟨"1", "AAA", 5, "hello"⟩⟩)], 0, 0⟩).2
          ≠ .replayFailed :=
  c1_mismatch_not_deleted 0 6002 [("1/AAA", ⟨"x", some ⟨"1", "AAA", 5, "hello"⟩⟩)]
    ⟨[], true⟩ ⟨[⟨some "ObjectCreated:Put", some "b", some "1/AAA", some "y"⟩]⟩
    0 0 0 "1/AAA" "y" "x" (by decide) (by decide) (by decide) rfl

/-- **C5 counterexample**: the claim requires the configured safety
margin to exceed the queue's visibility lease (plus a replay attempt),
but the source's margin is 6000 ms while the lease is 10 seconds:
the margin does not even reach the lease. -/
theorem c5_counterexample : ¬ visibilityTimeoutMillis < drainTimeMarginMillis := by
  decide

/-- **C5 (amended)**: the drainer never begins a new lease-and-replay
cycle once the remaining budget is at or below the 6000 ms margin
(returning with the state untouched) — although that margin does not
exceed the 10 s visibility lease; a message leaves the queue only if
its replay succeeded (so any message leased-but-unacknowledged when
the loop stops is still queued); and every message still queued when
the drain stops has its visibility deadline within one lease of the
clock, so it becomes re-deliverable. -/
theorem c5_drain_time_safety :
    (∀ (stepMillis deadline : Nat) (st : DrainState),
        deadline - st.now ≤ drainTimeMarginMillis →
        dlq stepMillis deadline st = (st, .timedOut))
  ∧ (∀ (stepMillis deadline : Nat) (st : DrainState) (b : RawEvent),
        b ∈ queueBodies st.queue →
        b ∉ queueBodies (dlq stepMillis deadline st).1.queue →
        (processEvent st.s3 st.es b).2 = .ok ())
  ∧ (∀ (stepMillis deadline : Nat) (st : DrainState),
        (∀ m ∈ st.queue, m.visibleAt ≤ st.now + visibilityTimeoutMillis) →
        ∀ m' ∈ (dlq stepMillis deadline st).1.queue,
          m'.visibleAt ≤ (dlq stepMillis deadline st).1.now + visibilityTimeoutMillis) := by
  refine ⟨?_, ?_, ?_⟩
  · intro stepMillis deadline st hle
    unfold dlq
    cases hf : deadline - st.now with
    | zero => rfl
    | succ f =>
      have hng : ¬ (deadline - st.now > drainTimeMarginMillis) := by omega
      unfold dlqLoop
      rw [if_neg hng]
  · intro stepMillis deadline st b hin hout
    exact dlqLoop_delete_only_on_success stepMillis deadline _ st b hin hout
  · intro stepMillis deadline st hbound
    exact (dlqLoop_lease_bound stepMillis deadline _ st hbound).2

theorem c5_witness :
    dlq 0 5000 ⟨[], ⟨[], true⟩, [], 0, 0⟩ = (⟨[], ⟨[], true⟩, [], 0, 0⟩, .timedOut)
  ∧ (processEvent [("1/AAA", ⟨"x", some ⟨"1", "AAA", 5, "hello"⟩⟩)] ⟨[], true⟩
        ⟨[⟨some "ObjectCreated:Put", some "b", some "1/AAA", some "x"⟩]⟩).2 = .ok ()
  ∧ (⟨⟨[⟨some "ObjectCreated:Put", some "b", some "1/AAA", some "y"⟩]⟩, 10000⟩ : QMessage).visibleAt
      ≤ (dlq 0 6002 ⟨[⟨⟨[⟨some "ObjectCreated:Put", some "b", some "1/AAA", some "y"⟩]⟩, 0⟩],
          ⟨[], true⟩, [("1/AAA", ⟨"x", some ⟨"1", "AAA", 5, "hello"⟩⟩)], 0, 0⟩).1.now
        + visibilityTimeoutMillis :=
  ⟨c5_drain_time_safety.1 0 5000 ⟨[], ⟨[], true⟩, [], 0, 0⟩ (by decide),
   c5_drain_time_safety.2.1 0 6002
     ⟨[⟨⟨[⟨some "ObjectCreated:Put", some "b", some "1/AAA", some "x"⟩]⟩, 0⟩],
      ⟨[], true⟩, [("1/AAA", ⟨"x", some ⟨"1", "AAA", 5, "hello"⟩⟩)], 0, 0⟩
     ⟨[⟨some "ObjectCreated:Put", some "b", some "1/AAA", some "x"⟩]⟩
     (by decide) (by decide),
   c5_drain_time_safety.2.2 0 6002
     ⟨[⟨⟨[⟨some "ObjectCreated:Put", some "b", some "1/AAA", some "y"⟩]⟩, 0⟩],
      ⟨[], true⟩, [("1/AAA", ⟨"x", some ⟨"1", "AAA", 5, "hello"⟩⟩)], 0, 0⟩
     (by decide)
     ⟨⟨[⟨some "ObjectCreated:Put", some "b", some "1/AAA", some "y"⟩]⟩, 10000⟩
     (by decide)⟩

/-! ## Reindex lemmas -/

theorem batchesOfFuel_mem_length :
    ∀ (fuel : Nat) (l : List SqsEntry) (b : List SqsEntry),
      b ∈ batchesOfFuel fuel l → b.length ≤ sqsBatchLimit := by
  intro fuel
  induction fuel with
  | zero =>
    intro l b hb
    cases l <;> simp [batchesOfFuel] at hb
  | succ f ih =>
    intro l b hb
    cases l with
    | nil => simp [batchesOfFuel] at hb
    | cons x t =>
      simp only [batchesOfFuel, List.mem_cons] at hb
      rcases hb with rfl | hb
      · exact List.length_take_le _ _
      · exact ih _ _ hb

theorem batchesOfFuel_join :
    ∀ (fuel : Nat) (l : List SqsEntry), l.length ≤ fuel →
      (batchesOfFuel fuel l).flatten = l := by
  intro fuel
  induction fuel with
  | zero =>
    intro l hl
    have hnil : l = [] := List.eq_nil_of_length_eq_zero (by omega)
    subst hnil
    rfl
  | succ f ih =>
    intro l hl
    cases l with
    | nil => rfl
    | cons x t =>
      simp only [batchesOfFuel, List.flatten_cons]
      rw [ih ((x :: t).drop sqsBatchLimit) (by
        simp only [List.length_drop, List.length_cons, sqsBatchLimit] at hl ⊢
        omega)]
      exact List.take_append_drop _ _

theorem batchKeys_append (l₁ l₂ : List SqsEntry) :
    batchKeys (l₁ ++ l₂) = batchKeys l₁ ++ batchKeys l₂ := by
  simp [batchKeys, List.filterMap_append]

theorem batchKeys_pageEntries (bucket : String) (contents : List (String × String)) :
    batchKeys (pageEntries bucket contents) = contents.map Prod.fst := by
  induction contents with
  | nil => rfl
  | cons o t ih =>
    show o.1 :: batchKeys (pageEntries bucket t) = o.1 :: t.map Prod.fst
    rw [ih]

theorem enqueuedKeys_append (a b : List ReindexOp) :
    enqueuedKeys (a ++ b) = enqueuedKeys a ++ enqueuedKeys b := by
  induction a with
  | nil => rfl
  | cons op t ih =>
    cases op <;> simp [enqueuedKeys, ih]

theorem enqueuedKeys_sendBatches (batches : List (List SqsEntry)) :
    enqueuedKeys (batches.map .sendBatch) = batchKeys batches.flatten := by
  induction batches with
  | nil => rfl
  | cons b t ih =>
    simp only [List.map_cons, List.flatten_cons, enqueuedKeys, batchKeys_append, ih]

/-- The keys a page segment enqueues are exactly the page's listed
keys. -/
theorem enqueuedKeys_pageSeg (bucket : String) (contents : List (String × String))
    (lk : Option String) :
    enqueuedKeys (.listPage (contents.map Prod.fst)
        :: (batchesOf (pageEntries bucket contents)).map .sendBatch
        ++ [.putStatus lk])
      = contents.map Prod.fst := by
  show enqueuedKeys ((batchesOf (pageEntries bucket contents)).map .sendBatch
        ++ [.putStatus lk]) = _
  rw [enqueuedKeys_append, enqueuedKeys_sendBatches, batchesOf,
    batchesOfFuel_join _ _ (le_refl _), batchKeys_pageEntries]
  simp [enqueuedKeys]

/-- The page loop's trace decomposes into complete page segments —
each one listing, then all the page's sends, then the one checkpoint
advance — followed by at most a trailing listing (the empty-page
throw); a completed loop has no trailing listing. -/
theorem reindexLoop_shape (bucket : String) (pageSize stepMillis : Nat) (messageId : String) :
    ∀ (fuel : Nat) (remaining : List (String × String)) (budget : Nat),
      ∃ (segs : List (List ReindexOp)) (tail : List ReindexOp),
        (reindexLoop bucket pageSize stepMillis messageId fuel remaining budget).1
          = segs.flatten ++ tail
        ∧ (∀ seg ∈ segs, isPageSeg bucket seg)
        ∧ (tail = [] ∨ ∃ ks, tail = [.listPage ks])
        ∧ ((reindexLoop bucket pageSize stepMillis messageId fuel remaining budget).2
            = .ok .completed → tail = []) := by
  intro fuel
  induction fuel with
  | zero =>
    intro remaining budget
    exact ⟨[], [], by simp [reindexLoop], by simp, Or.inl rfl, fun _ => rfl⟩
  | succ f ih =>
    intro remaining budget
    by_cases hb : budget < reindexTimeMarginMillis
    · refine ⟨[], [], ?_, by simp, Or.inl rfl, fun _ => rfl⟩
      simp [reindexLoop, hb]
    · cases hlast : (remaining.take pageSize).getLast? with
      | none =>
        have hred : reindexLoop bucket pageSize stepMillis messageId (f + 1) remaining budget
            = ([.listPage ((remaining.take pageSize).map Prod.fst)], .error .emptyPage) := by
          simp only [reindexLoop, if_neg hb, hlast]
        refine ⟨[], [.listPage ((remaining.take pageSize).map Prod.fst)], ?_,
          by simp, Or.inr ⟨_, rfl⟩, ?_⟩
        · rw [hred]
          rfl
        · intro h
          rw [hred] at h
          exact absurd h (by simp)
      | some lastEntry =>
        by_cases hrest : (remaining.drop pageSize).isEmpty = true
        · have hred : reindexLoop bucket pageSize stepMillis messageId (f + 1) remaining budget
              = (.listPage ((remaining.take pageSize).map Prod.fst)
                  :: (batchesOf (pageEntries bucket (remaining.take pageSize))).map .sendBatch
                  ++ [.putStatus (some lastEntry.1)], .ok .completed) := by
            simp only [reindexLoop, if_neg hb, hlast, hrest, if_true]
          refine ⟨[.listPage ((remaining.take pageSize).map Prod.fst)
              :: (batchesOf (pageEntries bucket (remaining.take pageSize))).map .sendBatch
              ++ [.putStatus (some lastEntry.1)]], [], ?_, ?_, Or.inl rfl, fun _ => rfl⟩
          · rw [hred]
            simp
          · intro seg hseg
            rcases List.mem_cons.mp hseg with rfl | h
            · exact ⟨remaining.take pageSize, lastEntry, hlast, rfl⟩
            · simp at h
        · obtain ⟨segs, tail, h1, h2, h3, h4⟩ :=
            ih (remaining.drop pageSize) (budget - (stepMillis + 1))
          have hred : reindexLoop bucket pageSize stepMillis messageId (f + 1) remaining budget
              = ((.listPage ((remaining.take pageSize).map Prod.fst)
                  :: (batchesOf (pageEntries bucket (remaining.take pageSize))).map .sendBatch
                  ++ [.putStatus (some lastEntry.1)])
                  ++ (reindexLoop bucket pageSize stepMillis messageId f
                      (remaining.drop pageSize) (budget - (stepMillis + 1))).1,
                 (reindexLoop bucket pageSize stepMillis messageId f
                      (remaining.drop pageSize) (budget - (stepMillis + 1))).2) := by
            simp only [reindexLoop, if_neg hb, hlast, hrest, if_false, Bool.false_eq_true]
          refine ⟨(.listPage ((remaining.take pageSize).map Prod.fst)
              :: (batchesOf (pageEntries bucket (remaining.take pageSize))).map .sendBatch
              ++ [.putStatus (some lastEntry.1)]) :: segs, tail, ?_, ?_, h3, ?_⟩
          · rw [hred]
            simp only [List.flatten_cons, h1, List.append_assoc]
          · intro seg hseg
            rcases List.mem_cons.mp hseg with rfl | h
            · exact ⟨remaining.take pageSize, lastEntry, hlast, rfl⟩
            · exact h2 seg h
          · intro h
            rw [hred] at h
            exact h4 h

/-- The full handler trace: a possible fresh-run empty-checkpoint
creation, then complete page segments, then at most a final checkpoint
deletion (completion) or a throwing listing (empty page). -/
theorem reindexLibrary_shape (bucket : String) (pageSize stepMillis : Nat) (messageId : String)
    (objects : List (String × String)) (status : Option (Option String)) (budget : Nat) :
    ∃ (init : List ReindexOp) (segs : List (List ReindexOp)) (tail : List ReindexOp),
      (reindexLibrary bucket pageSize stepMillis messageId objects status budget).1
        = init ++ segs.flatten ++ tail
      ∧ (init = [] ∨ init = [.putStatus none])
      ∧ (∀ seg ∈ segs, isPageSeg bucket seg)
      ∧ (tail = [] ∨ tail = [.deleteStatus] ∨ ∃ ks, tail = [.listPage ks]) := by
  obtain ⟨segs, tail, h1, h2, h3, h4⟩ := reindexLoop_shape bucket pageSize stepMillis messageId
    ((listAfter objects (statusLastKey status)).length + 1)
    (listAfter objects (statusLastKey status)) budget
  have hinit : (match status with
      | some _ => ([] : List ReindexOp)
      | none => [.putStatus none]) = [] ∨
      (match status with
      | some _ => ([] : List ReindexOp)
      | none => [.putStatus none]) = [.putStatus none] := by
    cases status
    · exact Or.inr rfl
    · exact Or.inl rfl
  cases hres : (reindexLoop bucket pageSize stepMillis messageId
      ((listAfter objects (statusLastKey status)).length + 1)
      (listAfter objects (statusLastKey status)) budget).2 with
  | ok outcome =>
    cases outcome with
    | completed =>
      have htail := h4 hres
      subst htail
      refine ⟨_, segs, [.deleteStatus], ?_, hinit, h2, Or.inr (Or.inl rfl)⟩
      simp only [reindexLibrary, hres]
      rw [h1]
      simp
    | retry m =>
      refine ⟨_, segs, tail, ?_, hinit, h2, ?_⟩
      · simp only [reindexLibrary, hres]
        rw [h1]
        simp
      · rcases h3 with h | ⟨ks, h⟩
        · exact Or.inl h
        · exact Or.inr (Or.inr ⟨ks, h⟩)
  | error e =>
    refine ⟨_, segs, tail, ?_, hinit, h2, ?_⟩
    · simp only [reindexLibrary, hres]
      rw [h1]
      simp
    · rcases h3 with h | ⟨ks, h⟩
      · exact Or.inl h
      · exact Or.inr (Or.inr ⟨ks, h⟩)

/-- **C6**: during reindexing, every page's enqueue batches are all
settled before the checkpoint's `lastKey` is advanced to that page's
last key and persisted: the whole trace decomposes into page segments
of the form "list, send all batches, advance checkpoint once", with
only a fresh-run empty-checkpoint creation before them and at most a
final checkpoint deletion or throwing listing after them — the
checkpoint write never precedes or interleaves with a page's queue
sends. -/
theorem c6_page_barrier (bucket : String) (pageSize stepMillis : Nat) (messageId : String)
    (objects : List (String × String)) (status : Option (Option String)) (budget : Nat) :
    ∃ (init : List ReindexOp) (segs : List (List ReindexOp)) (tail : List ReindexOp),
      (reindexLibrary bucket pageSize stepMillis messageId objects status budget).1
        = init ++ segs.flatten ++ tail
      ∧ (init = [] ∨ init = [.putStatus none])
      ∧ (∀ seg ∈ segs, isPageSeg bucket seg)
      ∧ (tail = [] ∨ tail = [.deleteStatus] ∨ ∃ ks, tail = [.listPage ks]) :=
  reindexLibrary_shape bucket pageSize stepMillis messageId objects status budget

/-- **C9**: every enqueue batch sent to the retry queue during a
reindex run holds at most 10 synthetic events, whatever the page size,
the listing, the checkpoint, or the time budget. -/
theorem c9_batch_limit (bucket : String) (pageSize stepMillis : Nat) (messageId : String)
    (objects : List (String × String)) (status : Option (Option String)) (budget : Nat)
    (entries : List SqsEntry)
    (hmem : ReindexOp.sendBatch entries
      ∈ (reindexLibrary bucket pageSize stepMillis messageId objects status budget).1) :
    entries.length ≤ sqsBatchLimit := by
  obtain ⟨init, segs, tail, h1, h2, h3, h4⟩ :=
    reindexLibrary_shape bucket pageSize stepMillis messageId objects status budget
  rw [h1] at hmem
  rcases List.mem_append.mp hmem with hmem' | htl
  · rcases List.mem_append.mp hmem' with hin | hjoin
    · rcases h2 with rfl | rfl
      · simp at hin
      · simp at hin
    · obtain ⟨seg, hseg, hmem''⟩ := List.mem_flatten.mp hjoin
      obtain ⟨contents, lastEntry, hlast, rfl⟩ := h3 seg hseg
      rcases List.mem_cons.mp hmem'' with heq | hmem₃
      · simp at heq
      · rcases List.mem_append.mp hmem₃ with hbs | hps
        · obtain ⟨b, hb, heq⟩ := List.mem_map.mp hbs
          have hbe : b = entries := by
            injection heq
          subst hbe
          exact batchesOfFuel_mem_length _ _ _ hb
        · simp at hps
  · rcases h4 with rfl | rfl | ⟨ks, rfl⟩ <;> simp at htl

theorem c9_witness :
    ([⟨"1-A", fakeCreatedEvent "bkt" "1/A" "a"⟩] : List SqsEntry).length ≤ sqsBatchLimit :=
  c9_batch_limit "bkt" 5 0 "mid" [("1/A", "a")] none 7000
    [⟨"1-A", fakeCreatedEvent "bkt" "1/A" "a"⟩] (by decide)

/-- **C10**: a reindex invocation whose listed page has no object keys
(for example a collection with no objects under its prefix, or an
enumeration returning an empty contents list) throws the empty-page
`TypeError` instead of completing: the run surfaces as a failure, and
its trace neither advances the checkpoint's `lastKey` nor deletes the
checkpoint record, so the checkpoint persists. -/
theorem c10_empty_page_throws (bucket : String) (pageSize stepMillis : Nat)
    (messageId : String) (objects : List (String × String))
    (status : Option (Option String)) (budget : Nat)
    (hbudget : reindexTimeMarginMillis ≤ budget)
    (hempty : listAfter objects (statusLastKey status) = []) :
    (reindexLibrary bucket pageSize stepMillis messageId objects status budget).2
        = .error .emptyPage
    ∧ (∀ k : String, ReindexOp.putStatus (some k)
        ∉ (reindexLibrary bucket pageSize stepMillis messageId objects status budget).1)
    ∧ ReindexOp.deleteStatus
        ∉ (reindexLibrary bucket pageSize stepMillis messageId objects status budget).1 := by
  have hnb : ¬ budget < reindexTimeMarginMillis := by omega
  have hloop : reindexLoop bucket pageSize stepMillis messageId
      ((listAfter objects (statusLastKey status)).length + 1)
      (listAfter objects (statusLastKey status)) budget
      = ([.listPage []], .error .emptyPage) := by
    rw [hempty]
    simp [reindexLoop, if_neg hnb]
  have hlib : reindexLibrary bucket pageSize stepMillis messageId objects status budget
      = ((match status with
          | some _ => ([] : List ReindexOp)
          | none => [.putStatus none]) ++ [.listPage []], .error .emptyPage) := by
    simp only [reindexLibrary, hloop]
  rw [hlib]
  refine ⟨rfl, ?_, ?_⟩
  · intro k
    cases status <;> simp
  · cases status <;> simp

theorem c10_witness :
    (reindexLibrary "bkt" 1000 0 "mid" [] none 6000).2 = .error .emptyPage
  ∧ (∀ k : String, ReindexOp.putStatus (some k)
      ∉ (reindexLibrary "bkt" 1000 0 "mid" [] none 6000).1)
  ∧ ReindexOp.deleteStatus ∉ (reindexLibrary "bkt" 1000 0 "mid" [] none 6000).1 :=
  c10_empty_page_throws "bkt" 1000 0 "mid" [] none 6000 (by decide) rfl

/-! ## Resumability lemmas (C7) -/

theorem applyStatusOps_append (s : Option (Option String)) (a b : List ReindexOp) :
    applyStatusOps s (a ++ b) = applyStatusOps (applyStatusOps s a) b := by
  induction a generalizing s with
  | nil => rfl
  | cons op t ih =>
    cases op <;> simp [applyStatusOps, ih]

/-- A page segment's only persistent effect on the checkpoint file is
the final advance to the page's last key. -/
theorem applyStatusOps_pageSeg (bucket : String) (contents : List (String × String))
    (k : String) (s : Option (Option String)) :
    applyStatusOps s (.listPage (contents.map Prod.fst)
        :: (batchesOf (pageEntries bucket contents)).map .sendBatch
        ++ [.putStatus (some k)])
      = some (some k) := by
  show applyStatusOps s ((batchesOf (pageEntries bucket contents)).map .sendBatch
      ++ [.putStatus (some k)]) = some (some k)
  rw [applyStatusOps_append]
  generalize (batchesOf (pageEntries bucket contents)) = batches
  induction batches generalizing s with
  | nil => rfl
  | cons b t ih => exact ih _

/-- Every key a page loop enqueues was among the listed remainder. -/
theorem reindexLoop_enqueued_sub (bucket : String) (pageSize stepMillis : Nat)
    (messageId : String) :
    ∀ (fuel : Nat) (remaining : List (String × String)) (budget : Nat) (k : String),
      k ∈ enqueuedKeys
        (reindexLoop bucket pageSize stepMillis messageId fuel remaining budget).1 →
      k ∈ remaining.map Prod.fst := by
  intro fuel
  induction fuel with
  | zero =>
    intro remaining budget k hk
    simp [reindexLoop, enqueuedKeys] at hk
  | succ f ih =>
    intro remaining budget k hk
    by_cases hb : budget < reindexTimeMarginMillis
    · simp [reindexLoop, hb, enqueuedKeys] at hk
    · cases hlast : (remaining.take pageSize).getLast? with
      | none =>
        have hred : reindexLoop bucket pageSize stepMillis messageId (f + 1) remaining budget
            = ([.listPage ((remaining.take pageSize).map Prod.fst)], .error .emptyPage) := by
          simp only [reindexLoop, if_neg hb, hlast]
        rw [hred] at hk
        simp [enqueuedKeys] at hk
      | some lastEntry =>
        by_cases hrest : (remaining.drop pageSize).isEmpty = true
        · have hred : reindexLoop bucket pageSize stepMillis messageId (f + 1) remaining budget
              = (.listPage ((remaining.take pageSize).map Prod.fst)
                  :: (batchesOf (pageEntries bucket (remaining.take pageSize))).map .sendBatch
                  ++ [.putStatus (some lastEntry.1)], .ok .completed) := by
            simp only [reindexLoop, if_neg hb, hlast, hrest, if_true]
          rw [hred] at hk
          rw [enqueuedKeys_pageSeg] at hk
          obtain ⟨o, ho, rfl⟩ := List.mem_map.mp hk
          exact List.mem_map_of_mem _ (List.mem_of_mem_take ho)
        · have hred : reindexLoop bucket pageSize stepMillis messageId (f + 1) remaining budget
              = ((.listPage ((remaining.take pageSize).map Prod.fst)
                  :: (batchesOf (pageEntries bucket (remaining.take pageSize))).map .sendBatch
                  ++ [.putStatus (some lastEntry.1)])
                  ++ (reindexLoop bucket pageSize stepMillis messageId f
                      (remaining.drop pageSize) (budget - (stepMillis + 1))).1,
                 (reindexLoop bucket pageSize stepMillis messageId f
                      (remaining.drop pageSize) (budget - (stepMillis + 1))).2) := by
            simp only [reindexLoop, if_neg hb, hlast, hrest, if_false, Bool.false_eq_true]
          rw [hred] at hk
          rw [enqueuedKeys_append, enqueuedKeys_pageSeg] at hk
          rcases List.mem_append.mp hk with h | h
          · obtain ⟨o, ho, rfl⟩ := List.mem_map.mp h
            exact List.mem_map_of_mem _ (List.mem_of_mem_take ho)
          · have := ih (remaining.drop pageSize) (budget - (stepMillis + 1)) k h
            obtain ⟨o, ho, rfl⟩ := List.mem_map.mp this
            exact List.mem_map_of_mem _ (List.mem_of_mem_drop ho)

/-- One run of the page loop processes a prefix of the listed
remainder: its enqueued keys are exactly the keys of some prefix of
length `p`; a completed run processed everything; when the budget
clears the margin and anything remains, at least one page was
processed; an empty-page throw happens only with nothing listed; and
the checkpoint file ends at the processed prefix's last key (or
untouched when nothing was processed). -/
theorem reindexLoop_run (bucket : String) (pageSize stepMillis : Nat) (messageId : String)
    (hpage : 0 < pageSize) :
    ∀ (fuel : Nat) (remaining : List (String × String)) (budget : Nat),
      remaining.length < fuel →
      ∃ p, p ≤ remaining.length ∧
        enqueuedKeys (reindexLoop bucket pageSize stepMillis messageId fuel remaining budget).1
          = (remaining.take p).map Prod.fst ∧
        ((reindexLoop bucket pageSize stepMillis messageId fuel remaining budget).2
            = .ok .completed → p = remaining.length) ∧
        (reindexTimeMarginMillis ≤ budget → remaining ≠ [] → min pageSize remaining.length ≤ p) ∧
        (∀ e, (reindexLoop bucket pageSize stepMillis messageId fuel remaining budget).2
            = .error e → remaining = []) ∧
        ((p = 0 ∧ ∀ s, applyStatusOps s
            (reindexLoop bucket pageSize stepMillis messageId fuel remaining budget).1 = s)
          ∨ (∃ e, (remaining.take p).getLast? = some e ∧ ∀ s, applyStatusOps s
              (reindexLoop bucket pageSize stepMillis messageId fuel remaining budget).1
                = some (some e.1))) := by
  intro fuel
  induction fuel with
  | zero =>
    intro remaining budget hlen
    exact absurd hlen (by omega)
  | succ f ih =>
    intro remaining budget hlen
    by_cases hb : budget < reindexTimeMarginMillis
    · have hred : reindexLoop bucket pageSize stepMillis messageId (f + 1) remaining budget
          = ([], .ok (.retry messageId)) := by
        simp only [reindexLoop, if_pos hb]
      refine ⟨0, by omega, ?_, ?_, ?_, ?_, Or.inl ⟨rfl, ?_⟩⟩
      · rw [hred]; rfl
      · rw [hred]; intro h; exact absurd h (by simp)
      · intro hbud; exact absurd hbud (by omega)
      · intro e h; rw [hred] at h; exact absurd h (by simp)
      · intro s; rw [hred]; rfl
    · cases hlast : (remaining.take pageSize).getLast? with
      | none =>
        have hnil : remaining = [] := by
          rcases remaining with _ | ⟨x, t⟩
          · rfl
          · exfalso
            have : (x :: t).take pageSize = x :: t.take (pageSize - 1) := by
              rcases pageSize with _ | ps
              · omega
              · rfl
            rw [this] at hlast
            simp [List.getLast?_eq_none_iff] at hlast
        subst hnil
        have hred : reindexLoop bucket pageSize stepMillis messageId (f + 1) [] budget
            = ([.listPage []], .error .emptyPage) := by
          simp only [reindexLoop, if_neg hb]
          simp
        refine ⟨0, by omega, ?_, ?_, ?_, fun _ _ => rfl, Or.inl ⟨rfl, ?_⟩⟩
        · rw [hred]; rfl
        · rw [hred]; intro h; exact absurd h (by simp)
        · intro _ h; exact absurd rfl h
        · intro s; rw [hred]; rfl
      | some lastEntry =>
        by_cases hrest : (remaining.drop pageSize).isEmpty = true
        · have hred : reindexLoop bucket pageSize stepMillis messageId (f + 1) remaining budget
              = (.listPage ((remaining.take pageSize).map Prod.fst)
                  :: (batchesOf (pageEntries bucket (remaining.take pageSize))).map .sendBatch
                  ++ [.putStatus (some lastEntry.1)], .ok .completed) := by
            simp only [reindexLoop, if_neg hb, hlast, hrest, if_true]
          have hall : remaining.take pageSize = remaining := by
            have : remaining.drop pageSize = [] := by
              simpa [List.isEmpty_iff] using hrest
            have hlen2 : remaining.length ≤ pageSize := by
              have := congrArg List.length this
              simp [List.length_drop] at this
              omega
            exact List.take_of_length_le hlen2
          refine ⟨remaining.length, le_refl _, ?_, fun _ => rfl, ?_, ?_, Or.inr ⟨lastEntry, ?_, ?_⟩⟩
          · rw [hred]
            show enqueuedKeys (.listPage ((remaining.take pageSize).map Prod.fst)
                :: (batchesOf (pageEntries bucket (remaining.take pageSize))).map .sendBatch
                ++ [.putStatus (some lastEntry.1)]) = _
            rw [enqueuedKeys_pageSeg, hall, List.take_length]
          · intro _ _
            have : min pageSize remaining.length ≤ remaining.length := min_le_right _ _
            omega
          · intro e h
            rw [hred] at h
            exact absurd h (by simp)
          · rw [List.take_length]
            rw [← hall]
            exact hlast
          · intro s
            rw [hred]
            show applyStatusOps s (.listPage ((remaining.take pageSize).map Prod.fst)
                :: (batchesOf (pageEntries bucket (remaining.take pageSize))).map .sendBatch
                ++ [.putStatus (some lastEntry.1)]) = _
            exact applyStatusOps_pageSeg bucket _ _ s
        · have hrne : remaining.drop pageSize ≠ [] := by
            simpa [List.isEmpty_iff] using hrest
          have hlen2 : pageSize < remaining.length := by
            by_contra hcon
            exact hrne (List.drop_eq_nil_of_le (by omega))
          obtain ⟨p', hp'le, hp'enq, hp'comp, _, hp'err, hp'stat⟩ :=
            ih (remaining.drop pageSize) (budget - (stepMillis + 1))
              (by simp [List.length_drop]; omega)
          have hred : reindexLoop bucket pageSize stepMillis messageId (f + 1) remaining budget
              = ((.listPage ((remaining.take pageSize).map Prod.fst)
                  :: (batchesOf (pageEntries bucket (remaining.take pageSize))).map .sendBatch
                  ++ [.putStatus (some lastEntry.1)])
                  ++ (reindexLoop bucket pageSize stepMillis messageId f
                      (remaining.drop pageSize) (budget - (stepMillis + 1))).1,
                 (reindexLoop bucket pageSize stepMillis messageId f
                      (remaining.drop pageSize) (budget - (stepMillis + 1))).2) := by
            simp only [reindexLoop, if_neg hb, hlast, hrest, if_false, Bool.false_eq_true]
          refine ⟨pageSize + p', by simp [List.length_drop] at hp'le; omega, ?_, ?_, ?_, ?_, ?_⟩
          · rw [hred]
            show enqueuedKeys ((.listPage ((remaining.take pageSize).map Prod.fst)
                :: (batchesOf (pageEntries bucket (remaining.take pageSize))).map .sendBatch
                ++ [.putStatus (some lastEntry.1)])
                ++ (reindexLoop bucket pageSize stepMillis messageId f
                    (remaining.drop pageSize) (budget - (stepMillis + 1))).1) = _
            rw [enqueuedKeys_append, enqueuedKeys_pageSeg, hp'enq]
            rw [List.take_add, List.map_append]
          · intro h
            rw [hred] at h
            have := hp'comp h
            simp [List.length_drop] at this
            omega
          · intro _ _
            have : min pageSize remaining.length = pageSize := by omega
            omega
          · intro e h
            rw [hred] at h
            have := hp'err e h
            exact absurd this hrne
          · rcases hp'stat with ⟨hp0, hsid⟩ | ⟨e, helast, hsome⟩
            · subst hp0
              refine Or.inr ⟨lastEntry, ?_, ?_⟩
              · have : remaining.take (pageSize + 0) = remaining.take pageSize := by
                  simp
                rw [this]
                exact hlast
              · intro s
                rw [hred]
                rw [show ((.listPage ((remaining.take pageSize).map Prod.fst)
                    :: (batchesOf (pageEntries bucket (remaining.take pageSize))).map .sendBatch
                    ++ [.putStatus (some lastEntry.1)])
                    ++ (reindexLoop bucket pageSize stepMillis messageId f
                        (remaining.drop pageSize) (budget - (stepMillis + 1))).1 : List ReindexOp)
                  = (.listPage ((remaining.take pageSize).map Prod.fst)
                    :: (batchesOf (pageEntries bucket (remaining.take pageSize))).map .sendBatch
                    ++ [.putStatus (some lastEntry.1)])
                    ++ (reindexLoop bucket pageSize stepMillis messageId f
                        (remaining.drop pageSize) (budget - (stepMillis + 1))).1 from rfl]
                rw [applyStatusOps_append, applyStatusOps_pageSeg]
                exact hsid (some (some lastEntry.1))
            · refine Or.inr ⟨e, ?_, ?_⟩
              · rw [List.take_add]
                have hne : (remaining.drop pageSize).take p' ≠ [] := by
                  intro hc
                  rw [hc] at helast
                  simp at helast
                rw [List.getLast?_append_of_ne_nil _ hne]
                exact helast
              · intro s
                rw [hred]
                rw [show ((.listPage ((remaining.take pageSize).map Prod.fst)
                    :: (batchesOf (pageEntries bucket (remaining.take pageSize))).map .sendBatch
                    ++ [.putStatus (some lastEntry.1)])
                    ++ (reindexLoop bucket pageSize stepMillis messageId f
                        (remaining.drop pageSize) (budget - (stepMillis + 1))).1 : List ReindexOp)
                  = (.listPage ((remaining.take pageSize).map Prod.fst)
                    :: (batchesOf (pageEntries bucket (remaining.take pageSize))).map .sendBatch
                    ++ [.putStatus (some lastEntry.1)])
                    ++ (reindexLoop bucket pageSize stepMillis messageId f
                        (remaining.drop pageSize) (budget - (stepMillis + 1))).1 from rfl]
                rw [applyStatusOps_append, applyStatusOps_pageSeg]
                exact hsome (some (some lastEntry.1))

theorem mem_of_getLastEq {α : Type} :
    ∀ (l : List α) (e : α), l.getLast? = some e → e ∈ l := by
  intro l
  induction l with
  | nil => intro e h; simp at h
  | cons a t ih =>
    intro e h
    cases t with
    | nil =>
      simp at h
      subst h
      simp
    | cons b t' =>
      rw [List.getLast?_cons_cons] at h
      exact List.mem_cons.mpr (Or.inr (ih e h))

theorem keyLtb_iff (a b : String) : keyLtb a b = true ↔ a < b := by
  rw [String.lt_iff_toList_lt]
  show decide (a.data < b.data) = true ↔ a.toList < b.toList
  rw [decide_eq_true_iff]
  exact Iff.rfl

theorem string_lt_of_data_lt {a b : String} (h : a.data < b.data) : a < b :=
  String.lt_iff_toList_lt.mpr h

theorem pairwise_keyLt_of_data (l : List (String × String))
    (h : l.Pairwise (fun a b => a.1.data < b.1.data)) :
    l.Pairwise (fun a b => a.1 < b.1) :=
  h.imp (fun hab => string_lt_of_data_lt hab)

/-- In a strictly key-sorted listing, the last element's key bounds
every key. -/
theorem sorted_le_getLast :
    ∀ (l : List (String × String)) (e : String × String),
      l.Pairwise (fun a b => a.1 < b.1) → l.getLast? = some e →
      ∀ x ∈ l, x.1 ≤ e.1 := by
  intro l
  induction l with
  | nil => intro e _ he; simp at he
  | cons a t ih =>
    intro e hs he x hx
    cases t with
    | nil =>
      simp at he
      subst he
      rcases List.mem_singleton.mp hx with rfl
      exact le_refl _
    | cons b t' =>
      rw [List.getLast?_cons_cons] at he
      rcases List.mem_cons.mp hx with rfl | hx'
      · have hmem : e ∈ b :: t' := mem_of_getLastEq _ _ he
        exact le_of_lt ((List.pairwise_cons.mp hs).1 e hmem)
      · exact ih e (List.pairwise_cons.mp hs).2 he x hx'

/-- Listing strictly after the last key of a processed prefix yields
exactly the unprocessed suffix (for a strictly sorted listing). -/
theorem filter_gt_last_take (R : List (String × String)) (p : Nat) (e : String × String)
    (hsort : R.Pairwise (fun a b => a.1 < b.1))
    (hlast : (R.take p).getLast? = some e) :
    R.filter (fun o => keyLtb e.1 o.1) = R.drop p := by
  conv_lhs => rw [← List.take_append_drop p R]
  rw [List.filter_append]
  have hsortSplit : (R.take p ++ R.drop p).Pairwise (fun a b => a.1 < b.1) := by
    rw [List.take_append_drop]
    exact hsort
  have hsplit := List.pairwise_append.mp hsortSplit
  have h1 : (R.take p).filter (fun o => keyLtb e.1 o.1) = [] := by
    rw [List.filter_eq_nil_iff]
    intro x hx
    have hle := sorted_le_getLast (R.take p) e hsplit.1 hlast x hx
    rw [keyLtb_iff]
    exact not_lt_of_le hle
  have h2 : (R.drop p).filter (fun o => keyLtb e.1 o.1) = R.drop p := by
    rw [List.filter_eq_self]
    intro x hx
    have hme : e ∈ R.take p := mem_of_getLastEq _ _ hlast
    have hlt := hsplit.2.2 e hme x hx
    rw [keyLtb_iff]
    exact hlt
  rw [h1, h2]
  rfl

/-- Narrowing the resume key of a listing (to a key that itself lies
after the old one) gives the same result whether applied to the full
bucket or to the old listing. -/
theorem filter_trans_gt (objects : List (String × String)) (K e : String)
    (hKe : K < e) :
    (objects.filter (fun o => keyLtb K o.1)).filter (fun o => keyLtb e o.1)
      = objects.filter (fun o => keyLtb e o.1) := by
  rw [List.filter_filter]
  apply List.filter_congr
  intro x _
  cases hx : keyLtb e x.1 with
  | false => simp
  | true =>
    have hKx : keyLtb K x.1 = true :=
      (keyLtb_iff K x.1).mpr (lt_trans hKe ((keyLtb_iff e x.1).mp hx))
    simp [hKx]

/-- Advancing the checkpoint to the last key of a processed prefix
makes the next listing exactly the unprocessed suffix. -/
theorem listAfter_advance (objects : List (String × String))
    (hsort : objects.Pairwise (fun a b => a.1 < b.1))
    (K : Option String) (p : Nat) (e : String × String)
    (hlast : ((listAfter objects K).take p).getLast? = some e) :
    listAfter objects (some e.1) = (listAfter objects K).drop p := by
  cases K with
  | none => exact filter_gt_last_take objects p e hsort hlast
  | some k =>
    have hsortR : (listAfter objects (some k)).Pairwise (fun a b => a.1 < b.1) :=
      List.Pairwise.filter _ hsort
    have h1 := filter_gt_last_take (listAfter objects (some k)) p e hsortR hlast
    have hke : k < e.1 := by
      have hmem : e ∈ (listAfter objects (some k)).take p := mem_of_getLastEq _ _ hlast
      have hmem2 : e ∈ listAfter objects (some k) := List.mem_of_mem_take hmem
      have hfe := List.of_mem_filter hmem2
      exact (keyLtb_iff k e.1).mp hfe
    show listAfter objects (some e.1) = _
    rw [← h1]
    show objects.filter (fun o => keyLtb e.1 o.1) = _
    rw [← filter_trans_gt objects k e.1 hke]
    rfl

/-- The clean-up deletion and the fresh-run empty-status creation
contribute no enqueued keys: a handler run enqueues exactly what its
page loop does. -/
theorem enqueuedKeys_reindexLibrary (bucket : String) (pageSize stepMillis : Nat)
    (messageId : String) (objects : List (String × String))
    (status : Option (Option String)) (budget : Nat) :
    enqueuedKeys (reindexLibrary bucket pageSize stepMillis messageId objects status budget).1
      = enqueuedKeys (reindexLoop bucket pageSize stepMillis messageId
          ((listAfter objects (statusLastKey status)).length + 1)
          (listAfter objects (statusLastKey status)) budget).1 := by
  have hinit : ∀ (tr : List ReindexOp), enqueuedKeys ((match status with
      | some _ => ([] : List ReindexOp)
      | none => [.putStatus none]) ++ tr) = enqueuedKeys tr := by
    intro tr
    cases status <;> rfl
  cases hres : (reindexLoop bucket pageSize stepMillis messageId
      ((listAfter objects (statusLastKey status)).length + 1)
      (listAfter objects (statusLastKey status)) budget).2 with
  | ok outcome =>
    cases outcome with
    | completed =>
      simp only [reindexLibrary, hres]
      rw [List.append_assoc, hinit, enqueuedKeys_append]
      simp [enqueuedKeys]
    | retry m =>
      simp only [reindexLibrary, hres]
      rw [hinit]
  | error e =>
    simp only [reindexLibrary, hres]
    rw [hinit]

/-- The handler reports exactly its page loop's verdict. -/
theorem reindexLibrary_snd (bucket : String) (pageSize stepMillis : Nat)
    (messageId : String) (objects : List (String × String))
    (status : Option (Option String)) (budget : Nat) :
    (reindexLibrary bucket pageSize stepMillis messageId objects status budget).2
      = (reindexLoop bucket pageSize stepMillis messageId
          ((listAfter objects (statusLastKey status)).length + 1)
          (listAfter objects (statusLastKey status)) budget).2 := by
  cases hres : (reindexLoop bucket pageSize stepMillis messageId
      ((listAfter objects (statusLastKey status)).length + 1)
      (listAfter objects (statusLastKey status)) budget).2 with
  | ok outcome =>
    cases outcome with
    | completed => simp only [reindexLibrary, hres]
    | retry m => simp only [reindexLibrary, hres]
  | error e => simp only [reindexLibrary, hres]

/-- A run that did not complete leaves its trace as the optional
fresh-status creation followed by the page loop's trace. -/
theorem reindexLibrary_fst_not_completed (bucket : String) (pageSize stepMillis : Nat)
    (messageId : String) (objects : List (String × String))
    (status : Option (Option String)) (budget : Nat)
    (h : (reindexLoop bucket pageSize stepMillis messageId
        ((listAfter objects (statusLastKey status)).length + 1)
        (listAfter objects (statusLastKey status)) budget).2 ≠ .ok .completed) :
    (reindexLibrary bucket pageSize stepMillis messageId objects status budget).1
      = (match status with
          | some _ => ([] : List ReindexOp)
          | none => [.putStatus none])
        ++ (reindexLoop bucket pageSize stepMillis messageId
            ((listAfter objects (statusLastKey status)).length + 1)
            (listAfter objects (statusLastKey status)) budget).1 := by
  cases hres : (reindexLoop bucket pageSize stepMillis messageId
      ((listAfter objects (statusLastKey status)).length + 1)
      (listAfter objects (statusLastKey status)) budget).2 with
  | ok outcome =>
    cases outcome with
    | completed => exact absurd hres h
    | retry m =>
      simp only [reindexLibrary, hres]
      cases status <;> rfl
  | error e =>
    simp only [reindexLibrary, hres]
    cases status <;> rfl

/-- Redelivering the reindex request until it stops enqueues every key
the checkpoint had not yet covered, provided each run's fresh budget
clears the margin (so each run completes at least one page). -/
theorem reindexRuns_coverage (bucket : String) (pageSize stepMillis : Nat)
    (messageId : String) (objects : List (String × String)) (runBudget : Nat)
    (hpage : 0 < pageSize)
    (hsort : objects.Pairwise (fun a b => a.1 < b.1))
    (hbud : reindexTimeMarginMillis ≤ runBudget) :
    ∀ (n : Nat) (status : Option (Option String)),
      (listAfter objects (statusLastKey status)).length < n →
      ∀ o ∈ listAfter objects (statusLastKey status),
        o.1 ∈ enqueuedKeys
          (reindexRuns bucket pageSize stepMillis messageId objects runBudget n status).1 := by
  intro n
  induction n with
  | zero =>
    intro status h o ho
    exact absurd h (by omega)
  | succ n ih =>
    intro status hlen o ho
    obtain ⟨p, hple, henq, hcomp, hprog, herr, hstat⟩ :=
      reindexLoop_run bucket pageSize stepMillis messageId hpage
        ((listAfter objects (statusLastKey status)).length + 1)
        (listAfter objects (statusLastKey status)) runBudget (by omega)
    cases hlib : reindexLibrary bucket pageSize stepMillis messageId objects status runBudget with
    | mk tr res =>
      have htr : (reindexLibrary bucket pageSize stepMillis messageId objects
          status runBudget).1 = tr := by rw [hlib]
      have hres2 : (reindexLoop bucket pageSize stepMillis messageId
          ((listAfter objects (statusLastKey status)).length + 1)
          (listAfter objects (statusLastKey status)) runBudget).2 = res := by
        rw [← reindexLibrary_snd, hlib]
      cases res with
      | error e =>
        have hRnil := herr e hres2
        exact absurd (hRnil ▸ ho) (by simp)
      | ok outcome =>
        cases outcome with
        | completed =>
          have hp := hcomp hres2
          have hrr : (reindexRuns bucket pageSize stepMillis messageId objects runBudget
              (n + 1) status).1 = tr := by
            simp only [reindexRuns, hlib]
          rw [hrr, ← htr, enqueuedKeys_reindexLibrary, henq, hp, List.take_length]
          exact List.mem_map_of_mem _ ho
        | retry m =>
          have hRne : listAfter objects (statusLastKey status) ≠ [] :=
            List.ne_nil_of_mem ho
          have hp1 : 1 ≤ p := by
            have := hprog hbud hRne
            have hRlen : 1 ≤ (listAfter objects (statusLastKey status)).length :=
              List.length_pos_of_ne_nil hRne
            omega
          rcases hstat with ⟨hp0, _⟩ | ⟨e, helast, happly⟩
          · omega
          have hrr : (reindexRuns bucket pageSize stepMillis messageId objects runBudget
              (n + 1) status).1
              = tr ++ (reindexRuns bucket pageSize stepMillis messageId objects runBudget n
                  (applyStatusOps status tr)).1 := by
            simp only [reindexRuns, hlib]
          have hstatus : applyStatusOps status tr = some (some e.1) := by
            rw [← htr, reindexLibrary_fst_not_completed bucket pageSize stepMillis
              messageId objects status runBudget (by rw [hres2]; simp)]
            rw [applyStatusOps_append]
            exact happly _
          have hadv := listAfter_advance objects hsort (statusLastKey status) p e helast
          have hlen' : (listAfter objects (statusLastKey (applyStatusOps status tr))).length
              < n := by
            rw [hstatus]
            show (listAfter objects (some e.1)).length < n
            rw [hadv]
            simp only [List.length_drop]
            omega
          rw [hrr, enqueuedKeys_append]
          have hosplit : o ∈ (listAfter objects (statusLastKey status)).take p
              ++ (listAfter objects (statusLastKey status)).drop p := by
            rw [List.take_append_drop]
            exact ho
          rcases List.mem_append.mp hosplit with hol | hor
          · apply List.mem_append.mpr
            left
            rw [← htr, enqueuedKeys_reindexLibrary, henq]
            exact List.mem_map_of_mem _ hol
          · apply List.mem_append.mpr
            right
            apply ih (applyStatusOps status tr) hlen'
            rw [hstatus]
            show o ∈ listAfter objects (some e.1)
            rw [hadv]
            exact hor

/-- The only retry signal the page loop ever reports carries the
triggering message id, so the queue redelivers that same request. -/
theorem reindexLoop_retry_id (bucket : String) (pageSize stepMillis : Nat)
    (messageId : String) :
    ∀ (fuel : Nat) (remaining : List (String × String)) (budget : Nat) (m : String),
      (reindexLoop bucket pageSize stepMillis messageId fuel remaining budget).2
        = .ok (.retry m) → m = messageId := by
  intro fuel
  induction fuel with
  | zero =>
    intro remaining budget m h
    simp [reindexLoop] at h
    exact h.symm
  | succ f ih =>
    intro remaining budget m h
    by_cases hb : budget < reindexTimeMarginMillis
    · simp [reindexLoop, hb] at h
      exact h.symm
    · cases hlast : (remaining.take pageSize).getLast? with
      | none =>
        have hred : reindexLoop bucket pageSize stepMillis messageId (f + 1) remaining budget
            = ([.listPage ((remaining.take pageSize).map Prod.fst)], .error .emptyPage) := by
          simp only [reindexLoop, if_neg hb, hlast]
        rw [hred] at h
        exact absurd h (by simp)
      | some lastEntry =>
        by_cases hrest : (remaining.drop pageSize).isEmpty = true
        · have hred : reindexLoop bucket pageSize stepMillis messageId (f + 1) remaining budget
              = (.listPage ((remaining.take pageSize).map Prod.fst)
                  :: (batchesOf (pageEntries bucket (remaining.take pageSize))).map .sendBatch
                  ++ [.putStatus (some lastEntry.1)], .ok .completed) := by
            simp only [reindexLoop, if_neg hb, hlast, hrest, if_true]
          rw [hred] at h
          exact absurd h (by simp)
        · have hred : reindexLoop bucket pageSize stepMillis messageId (f + 1) remaining budget
              = ((.listPage ((remaining.take pageSize).map Prod.fst)
                  :: (batchesOf (pageEntries bucket (remaining.take pageSize))).map .sendBatch
                  ++ [.putStatus (some lastEntry.1)])
                  ++ (reindexLoop bucket pageSize stepMillis messageId f
                      (remaining.drop pageSize) (budget - (stepMillis + 1))).1,
                 (reindexLoop bucket pageSize stepMillis messageId f
                      (remaining.drop pageSize) (budget - (stepMillis + 1))).2) := by
            simp only [reindexLoop, if_neg hb, hlast, hrest, if_false, Bool.false_eq_true]
          rw [hred] at h
          exact ih _ _ m h

/-- **C7**: resumability. (1) A run resumed from checkpoint
`lastKey = K` enqueues only keys strictly after `K` — no key at or
before `K` is re-listed from the checkpoint. (2) A run whose budget is
already inside the safety margin reports the structured retry signal
(`batchItemFailures` carrying the triggering message id) and enqueues
nothing, so the same request is redelivered to resume later — and any
retry signal a run ever reports carries exactly the triggering message
id. (3) Across such redeliveries — each run granted a fresh budget
clearing the margin — every key after `K` is eventually enqueued at
least once, never zero times. -/
theorem c7_resumability :
    (∀ (bucket : String) (pageSize stepMillis : Nat) (messageId K : String)
        (objects : List (String × String)) (budget : Nat) (k : String),
        k ∈ enqueuedKeys (reindexLibrary bucket pageSize stepMillis messageId objects
            (some (some K)) budget).1 →
        K < k)
  ∧ (∀ (bucket : String) (pageSize stepMillis : Nat) (messageId : String)
        (objects : List (String × String)) (status : Option (Option String)) (budget : Nat),
        budget < reindexTimeMarginMillis →
        (reindexLibrary bucket pageSize stepMillis messageId objects status budget).2
            = .ok (.retry messageId)
          ∧ enqueuedKeys (reindexLibrary bucket pageSize stepMillis messageId objects
              status budget).1 = [])
  ∧ (∀ (bucket : String) (pageSize stepMillis : Nat) (messageId m : String)
        (objects : List (String × String)) (status : Option (Option String)) (budget : Nat),
        (reindexLibrary bucket pageSize stepMillis messageId objects status budget).2
            = .ok (.retry m) → m = messageId)
  ∧ (∀ (bucket : String) (pageSize stepMillis : Nat) (messageId K : String)
        (objects : List (String × String)) (runBudget n : Nat),
        0 < pageSize →
        objects.Pairwise (fun a b => a.1 < b.1) →
        reindexTimeMarginMillis ≤ runBudget →
        objects.length < n →
        ∀ o ∈ objects, K < o.1 →
          o.1 ∈ enqueuedKeys (reindexRuns bucket pageSize stepMillis messageId objects
              runBudget n (some (some K))).1) := by
  refine ⟨?_, ?_, ?_, ?_⟩
  · intro bucket pageSize stepMillis messageId K objects budget k hk
    rw [enqueuedKeys_reindexLibrary] at hk
    have hsub := reindexLoop_enqueued_sub bucket pageSize stepMillis messageId _ _ budget k hk
    obtain ⟨o, ho, rfl⟩ := List.mem_map.mp hsub
    have hfo := List.of_mem_filter
      (show o ∈ objects.filter (fun x => keyLtb K x.1) from ho)
    exact (keyLtb_iff K o.1).mp hfo
  · intro bucket pageSize stepMillis messageId objects status budget hb
    have hred : reindexLoop bucket pageSize stepMillis messageId
        ((listAfter objects (statusLastKey status)).length + 1)
        (listAfter objects (statusLastKey status)) budget
        = ([], .ok (.retry messageId)) := by
      simp only [reindexLoop, if_pos hb]
    constructor
    · rw [reindexLibrary_snd, hred]
    · rw [enqueuedKeys_reindexLibrary, hred]
      rfl
  · intro bucket pageSize stepMillis messageId m objects status budget h
    rw [reindexLibrary_snd] at h
    exact reindexLoop_retry_id bucket pageSize stepMillis messageId _ _ budget m h
  · intro bucket pageSize stepMillis messageId K objects runBudget n hpage hsort hbud hn o ho hKo
    have hmem : o ∈ listAfter objects (statusLastKey (some (some K))) := by
      show o ∈ objects.filter (fun x => keyLtb K x.1)
      exact List.mem_filter.mpr ⟨ho, (keyLtb_iff K o.1).mpr hKo⟩
    apply reindexRuns_coverage bucket pageSize stepMillis messageId objects runBudget
      hpage hsort hbud n (some (some K)) ?_ o hmem
    calc (listAfter objects (statusLastKey (some (some K)))).length
        ≤ objects.length := by
          show (objects.filter _).length ≤ _
          exact List.length_filter_le _ _
      _ < n := hn

theorem c7_witness :
    ("1/B" : String) < "1/C"
  ∧ ((reindexLibrary "bkt" 2 0 "mid" [("1/A", "a")] none 0).2 = .ok (.retry "mid")
      ∧ enqueuedKeys (reindexLibrary "bkt" 2 0 "mid" [("1/A", "a")] none 0).1 = [])
  ∧ ("mid" : String) = "mid"
  ∧ ("1/C" : String) ∈ enqueuedKeys (reindexRuns "bkt" 2 0 "mid"
      [("1/A", "a"), ("1/B", "b"), ("1/C", "c"), ("1/D", "d")] 6000 5
      (some (some "1/B"))).1 :=
  ⟨c7_resumability.1 "bkt" 2 0 "mid" "1/B"
     [("1/A", "a"), ("1/B", "b"), ("1/C", "c"), ("1/D", "d")] 6000 "1/C" (by decide),
   c7_resumability.2.1 "bkt" 2 0 "mid" [("1/A", "a")] none 0 (by decide),
   c7_resumability.2.2.1 "bkt" 2 0 "mid" "mid" [("1/A", "a")] none 0 rfl,
   c7_resumability.2.2.2 "bkt" 2 0 "mid" "1/B"
     [("1/A", "a"), ("1/B", "b"), ("1/C", "c"), ("1/D", "d")] 6000 5
     (by decide) (pairwise_keyLt_of_data _ (by decide)) (by decide) (by decide)
     ("1/C", "c") (by decide) (string_lt_of_data_lt (by decide))⟩

end FullTextIndexer
